import Mathlib

/-!
# flow: a shallow embedding of the router in `flow.go`

The development follows the source file top to bottom: the string helpers of the
`strings` package that the router calls, the part of `regexp` it relies on, the
binding context, `route.match`, `Mux.Handle`, `Mux.wrap` and `Mux.ServeHTTP`.
A Go `string` is modelled as the list of its characters.
-/

namespace Flow

/-- A Go string, as the list of its characters. -/
abbrev Str := List Char

/-! ## The `strings` functions used by the router -/

/-- `strings.Split(s, sep)` for a one-character separator (the router only ever splits
on `"/"`): all pieces between separators, empty pieces kept; the empty string splits
into one empty piece. -/
def Split : Str → Char → List Str
  | [], _ => [[]]
  | c :: cs, sep =>
    if c = sep then [] :: Split cs sep
    else match Split cs sep with
      | [] => [[c]]
      | seg :: segs => (c :: seg) :: segs

/-- `strings.Join(elems, sep)`. -/
def Join : List Str → Str → Str
  | [], _ => []
  | [a], _ => a
  | a :: b :: rest, sep => a ++ sep ++ Join (b :: rest) sep

/-- `strings.HasPrefix(s, prefix)`. -/
def HasPrefix (s pre : Str) : Bool := pre.isPrefixOf s

/-- `strings.HasSuffix(s, suffix)`. -/
def HasSuffix (s suf : Str) : Bool := suf.isSuffixOf s

/-- `strings.Index(s, substr)` for a one-character `substr`: the position of its first
occurrence, or `-1` when there is none. -/
def Index : Str → Char → Int
  | [], _ => -1
  | c :: cs, x => if c = x then 0 else
      let k := Index cs x
      if k = -1 then -1 else k + 1

/-- `unicode.ToUpper(r)`: a letter `a` to `z` is moved to `A` to `Z` and every other
ASCII character is left alone, as the function spells out; above ASCII the result comes
from the case tables of the Unicode standard, which are data of the library and enter
here as the map `U`. -/
def upperRune (U : Char → Char) (r : Char) : Char :=
  if r.toNat ≤ 127 then r.toUpper else U r

/-- `strings.ToUpper(s)`: every character of `s` mapped by `unicode.ToUpper`. -/
def ToUpper (U : Char → Char) (s : Str) : Str := s.map (upperRune U)

/-! ## The `regexp` package

The router calls `regexp.MustCompile` and `(*Regexp).MatchString`.  The library is not
part of the repository; it enters the model as a parameter with the contract of its
documentation: `MustCompile` panics when the text does not parse, and `MatchString`
"reports whether the string contains any match of the regular expression". -/

/-- A regular-expression library. -/
structure Regexp where
  /-- whether `regexp.Compile` accepts the text -/
  compiles : Str → Bool
  /-- whether the expression with the given text matches `s[i:j]`, read inside `s` -/
  matchAt : Str → Str → Nat → Nat → Bool

/-- Why a call did not return. -/
inductive Panic where
  /-- `regexp.MustCompile` was given a text that does not parse -/
  | regexpCompile (text : Str)
  /-- a slice was indexed out of range -/
  | indexOutOfRange
  /-- the type assertion `.(string)` was applied to a nil interface value -/
  | nilAssertion
  deriving DecidableEq, Repr

/-- The result of a call that either returns a value or panics. -/
inductive Result (α : Type) where
  | ok (a : α)
  | panic (p : Panic)
  deriving DecidableEq, Repr

/-- `regexp.MustCompile(text)`: the compiled expression (represented by its text), or a
panic. -/
def MustCompile (E : Regexp) (text : Str) : Result Str :=
  if E.compiles text then .ok text else .panic (.regexpCompile text)

/-- `rx.MatchString(s)`: some substring `s[i:j]` is a match of `rx`. -/
def MatchString (E : Regexp) (rx s : Str) : Bool :=
  (List.range (s.length + 1)).any fun i =>
    (List.range (s.length + 1)).any fun j => decide (i ≤ j) && E.matchAt rx s i j

/-- The whole of `s` is a match of `rx`. -/
def FullMatch (E : Regexp) (rx s : Str) : Bool := E.matchAt rx s 0 s.length

/-! ## The binding context -/

/-- A `context.Context`, restricted to the values stored under keys of type
`contextKey`: the most recent binding comes first. -/
abbrev Ctx := List (Str × Str)

/-- `context.WithValue(ctx, contextKey(key), val)`. -/
def WithValue (ctx : Ctx) (key val : Str) : Ctx := (key, val) :: ctx

/-- `ctx.Value(contextKey(key))`: the most recent value stored under the key, if any. -/
def Value : Ctx → Str → Option Str
  | [], _ => none
  | (k, v) :: rest, key => if k = key then some v else Value rest key

/-- `Param(ctx, param)`: the type assertion panics when nothing is bound. -/
def Param (ctx : Ctx) (param : Str) : Result Str :=
  match Value ctx param with
  | some v => .ok v
  | none => .panic .nilAssertion

/-! ## Routes and matching -/

/-- The `route` struct. -/
structure route (H : Type) where
  method : Str
  segments : List Str
  wildcard : Bool
  handler : H
  deriving DecidableEq, Repr

/-- The loop of `route.match` over `r.segments`, from index `i` on. -/
def matchLoop (E : Regexp) (urlSegments : List Str) : List Str → Nat → Ctx → Result (Ctx × Bool)
  | [], _, ctx => .ok (ctx, true)
  | routeSegment :: rest, i, ctx =>
    if (i : Int) > (urlSegments.length : Int) - 1 then .ok (ctx, false)
    else if routeSegment = "...".toList then .ok (ctx, true)
    else if HasPrefix routeSegment ":".toList then
      let pipe := Index routeSegment '|'
      if pipe = -1 then
        match urlSegments[i]? with
        | none => .panic .indexOutOfRange
        | some urlSegment =>
          matchLoop E urlSegments rest (i + 1) (WithValue ctx routeSegment urlSegment)
      else
        match MustCompile E (routeSegment.drop (pipe + 1).toNat) with
        | .panic p => .panic p
        | .ok rx =>
          match urlSegments[i]? with
          | none => .panic .indexOutOfRange
          | some urlSegment =>
            if MatchString E rx urlSegment then
              matchLoop E urlSegments rest (i + 1)
                (WithValue ctx (routeSegment.take pipe.toNat) urlSegment)
            else .ok (ctx, false)
    else
      match urlSegments[i]? with
      | none => .panic .indexOutOfRange
      | some urlSegment =>
        if urlSegment ≠ routeSegment then .ok (ctx, false)
        else matchLoop E urlSegments rest (i + 1) ctx

/-- The method `route.match`. -/
def route.match {H : Type} (E : Regexp) (r : route H) (ctx : Ctx) (urlSegments : List Str) :
    Result (Ctx × Bool) :=
  if !r.wildcard && urlSegments.length ≠ r.segments.length then .ok (ctx, false)
  else matchLoop E urlSegments r.segments 0 ctx

/-! ## The router -/

/-- `http.MethodGet`. -/
def MethodGet : Str := "GET".toList
/-- `http.MethodHead`. -/
def MethodHead : Str := "HEAD".toList
/-- `http.MethodPost`. -/
def MethodPost : Str := "POST".toList
/-- `http.MethodPut`. -/
def MethodPut : Str := "PUT".toList
/-- `http.MethodPatch`. -/
def MethodPatch : Str := "PATCH".toList
/-- `http.MethodDelete`. -/
def MethodDelete : Str := "DELETE".toList
/-- `http.MethodConnect`. -/
def MethodConnect : Str := "CONNECT".toList
/-- `http.MethodOptions`. -/
def MethodOptions : Str := "OPTIONS".toList
/-- `http.MethodTrace`. -/
def MethodTrace : Str := "TRACE".toList

/-- The package variable `allMethods`. -/
def allMethods : List Str :=
  [MethodGet, MethodHead, MethodPost, MethodPut, MethodPatch, MethodDelete, MethodConnect,
    MethodOptions, MethodTrace]

/-- The function `contains`. -/
def contains : List Str → Str → Bool
  | [], _ => false
  | a :: s, e => if a = e then true else contains s e

/-- The `Mux` struct; `routes` is the table the pointer field refers to.  Handlers are
values of an arbitrary type `H`, middlewares are functions on it. -/
structure Mux (H : Type) where
  NotFound : H
  MethodNotAllowed : H
  Options : H
  routes : List (route H)
  middlewares : List (H → H)

/-- `New()`, given the three stock handlers it installs. -/
def New {H : Type} (notFound methodNotAllowed options : H) : Mux H :=
  { NotFound := notFound, MethodNotAllowed := methodNotAllowed, Options := options,
    routes := [], middlewares := [] }

/-- `Mux.wrap`: the loop applies `middlewares[i]` for `i` from the last index down
to 0. -/
def Mux.wrap {H : Type} (m : Mux H) (handler : H) : H :=
  m.middlewares.reverse.foldl (fun handler mw => mw handler) handler

/-- `Mux.Use`. -/
def Mux.Use {H : Type} (m : Mux H) (mw : H → H) : Mux H :=
  { m with middlewares := m.middlewares ++ [mw] }

/-- `Mux.Handle`; `U` is the upper-case map that `strings.ToUpper` uses above ASCII. -/
def Mux.Handle {H : Type} (m : Mux H) (U : Char → Char) (pattern : Str) (handler : H)
    (methods : List Str) : Mux H :=
  let methods :=
    if contains methods MethodGet && !contains methods MethodHead then methods ++ [MethodHead]
    else methods
  let methods := if methods.length = 0 then allMethods else methods
  methods.foldl (fun m method =>
    { m with routes := m.routes ++
        [{ method := ToUpper U method
           segments := Split pattern '/'
           wildcard := HasSuffix pattern "/...".toList
           handler := m.wrap handler }] }) m

/-- `Mux.HandleFunc`: the function is used as the handler. -/
def Mux.HandleFunc {H : Type} (m : Mux H) (U : Char → Char) (pattern : Str) (fn : H)
    (methods : List Str) : Mux H :=
  m.Handle U pattern fn methods

/-- `Mux.Group`: `mm := *m; fn(&mm)`.  The body works on a copy of the struct.  The copy
holds the same `routes` pointer, so what the body appends to the table is in the
parent's table; every other field of the copy, the middleware slice header among them,
is the copy's own and is dropped at the end.  (An `append` of the body writes at or
behind the parent's length, or into a new array, so the parent's slice keeps its
elements.)  The body is given by its effect on the router it is handed. -/
def Mux.Group {H : Type} (m : Mux H) (fn : Mux H → Mux H) : Mux H :=
  { m with routes := (fn m).routes }

/-- What `ServeHTTP` ends up doing: which handler it invokes, with which request
context, and the `Allow` header it has set before. -/
inductive Outcome (H : Type) where
  /-- `route.handler.ServeHTTP(w, r.WithContext(ctx))` -/
  | Match (handler : H) (ctx : Ctx)
  /-- `Allow` set, then `m.wrap(m.Options).ServeHTTP(w, r)` -/
  | Options (allow : Str) (handler : H) (ctx : Ctx)
  /-- `Allow` set, then `m.wrap(m.MethodNotAllowed).ServeHTTP(w, r)` -/
  | MethodNotAllowed (allow : Str) (handler : H) (ctx : Ctx)
  /-- `m.wrap(m.NotFound).ServeHTTP(w, r)` -/
  | NotFound (handler : H) (ctx : Ctx)
  deriving DecidableEq, Repr

/-- The part of `ServeHTTP` after the loop over the routes. -/
def fallback {H : Type} (m : Mux H) (method : Str) (ctx : Ctx) (allowedMethods : List Str) :
    Outcome H :=
  if allowedMethods.length > 0 then
    let allow := Join (allowedMethods ++ [MethodOptions]) ", ".toList
    if method = MethodOptions then .Options allow (m.wrap m.Options) ctx
    else .MethodNotAllowed allow (m.wrap m.MethodNotAllowed) ctx
  else .NotFound (m.wrap m.NotFound) ctx

/-- The loop of `ServeHTTP` over the remaining routes, then the fallback. -/
def serveLoop {H : Type} (E : Regexp) (m : Mux H) (method : Str) (ctx : Ctx)
    (urlSegments : List Str) : List (route H) → List Str → Result (Outcome H)
  | [], allowedMethods => .ok (fallback m method ctx allowedMethods)
  | route :: rest, allowedMethods =>
    match route.match E ctx urlSegments with
    | .panic p => .panic p
    | .ok (ctx', ok) =>
      if ok then
        if method = route.method then .ok (.Match route.handler ctx')
        else if !contains allowedMethods route.method then
          serveLoop E m method ctx urlSegments rest (allowedMethods ++ [route.method])
        else serveLoop E m method ctx urlSegments rest allowedMethods
      else serveLoop E m method ctx urlSegments rest allowedMethods

/-- `Mux.ServeHTTP` for a request with the given method, URL path and context. -/
def Mux.ServeHTTP {H : Type} (E : Regexp) (m : Mux H) (method path : Str) (ctx : Ctx) :
    Result (Outcome H) :=
  serveLoop E m method ctx (Split path '/') m.routes []

/-! ## A regular-expression library to run examples with

A small fragment of the RE2 syntax that Go's `regexp` implements: an optional leading
`^`, then items, then an optional trailing `$`; an item is a literal character or a
class `[a-b]`, optionally followed by `+` or `*`.  Texts outside the fragment are
rejected by this library. -/

/-- A character test of the fragment. -/
inductive Atom where
  | lit (c : Char)
  | cls (lo hi : Char)
  deriving DecidableEq, Repr

/-- How often an atom may repeat. -/
inductive Quant where
  | one
  | plus
  | star
  deriving DecidableEq, Repr

/-- Whether the atom accepts the character. -/
def Atom.accepts : Atom → Char → Bool
  | .lit c, x => x = c
  | .cls lo hi, x => decide (lo.toNat ≤ x.toNat) && decide (x.toNat ≤ hi.toNat)

/-- The characters with a special meaning, which are no literals. -/
def metaChars : List Char :=
  [Char.ofNat 92, '.', '+', '*', '?', '(', ')', '|', '[', ']', '{', '}', '^', '$']

/-- Read one atom from the front of the text. -/
def parseAtom : Str → Option (Atom × Str)
  | '[' :: lo :: '-' :: hi :: ']' :: rest =>
    if lo.isAlphanum && hi.isAlphanum && decide (lo.toNat ≤ hi.toNat) then some (.cls lo hi, rest)
    else none
  | c :: rest => if c ∈ metaChars then none else some (.lit c, rest)
  | [] => none

/-- Read the items of the text; the fuel bounds the number of items. -/
def parseItems : Nat → Str → Option (List (Atom × Quant))
  | _, [] => some []
  | 0, _ :: _ => none
  | n + 1, text =>
    match parseAtom text with
    | none => none
    | some (a, '+' :: rest) => (parseItems n rest).map fun items => (a, .plus) :: items
    | some (a, '*' :: rest) => (parseItems n rest).map fun items => (a, .star) :: items
    | some (a, rest) => (parseItems n rest).map fun items => (a, .one) :: items

/-- The text without a trailing `$`, and whether there was one. -/
def stripDollar (text : Str) : Str × Bool :=
  if HasSuffix text "$".toList then (text.dropLast, true) else (text, false)

/-- The text as (anchored at the start, items, anchored at the end). -/
def parseRE (text : Str) : Option (Bool × List (Atom × Quant) × Bool) :=
  let (startAnchor, body) :=
    match text with
    | '^' :: rest => (true, rest)
    | _ => (false, text)
  let (body, endAnchor) := stripDollar body
  (parseItems body.length body).map fun items => (startAnchor, items, endAnchor)

/-- Zero or more characters accepted by `p`, then a rest accepted by `k`. -/
def starThen (p : Char → Bool) (k : Str → Bool) : Str → Bool
  | [] => k []
  | c :: cs => k (c :: cs) || (p c && starThen p k cs)

/-- Whether the items match exactly the string. -/
def matchItems : List (Atom × Quant) → Str → Bool
  | [], s => s.isEmpty
  | (a, .one) :: rest, s =>
    match s with
    | [] => false
    | c :: cs => a.accepts c && matchItems rest cs
  | (a, .star) :: rest, s => starThen a.accepts (matchItems rest) s
  | (a, .plus) :: rest, s =>
    match s with
    | [] => false
    | c :: cs => a.accepts c && starThen a.accepts (matchItems rest) cs

/-- The library for the fragment: `^` holds at position 0 only and `$` at the end of
the text only, as in Go without flags. -/
def miniRE : Regexp where
  compiles text := (parseRE text).isSome
  matchAt text s i j :=
    match parseRE text with
    | none => false
    | some (startAnchor, items, endAnchor) =>
      (!startAnchor || i == 0) && (!endAnchor || j == s.length) &&
        matchItems items ((s.drop i).take (j - i))

/-! ## Notions the claims are stated with -/

/-- Whether the route's pattern matches the path: `route.match` returns `true`. -/
def pathMatches {H : Type} (E : Regexp) (r : route H) (ctx : Ctx) (urlSegments : List Str) :
    Bool :=
  match r.match E ctx urlSegments with
  | .ok (_, ok) => ok
  | .panic _ => false

/-- Every element once, in the order of first occurrence. -/
def firstSeen : List Str → List Str
  | [] => []
  | x :: xs => x :: (firstSeen xs).filter fun y => decide (y ≠ x)

/-- The `allowedMethods` slice after the loop of `ServeHTTP` has recorded the given
methods one after the other. -/
def accumulate : List Str → List Str → List Str
  | allowed, [] => allowed
  | allowed, x :: xs =>
    if !contains allowed x then accumulate (allowed ++ [x]) xs else accumulate allowed xs

/-- Whether a path segment satisfies a pattern segment that is not the wildcard marker:
a literal asks for equality, a named segment without constraint takes any value, a
named segment with a constraint asks that the constraint compiles and that
`MatchString` accepts the value. -/
def segPasses (E : Regexp) (routeSegment urlSegment : Str) : Bool :=
  if HasPrefix routeSegment ":".toList then
    if Index routeSegment '|' = -1 then true
    else E.compiles (routeSegment.drop (Index routeSegment '|' + 1).toNat) &&
      MatchString E (routeSegment.drop (Index routeSegment '|' + 1).toNat) urlSegment
  else decide (urlSegment = routeSegment)

/-- The pattern segment is the wildcard marker, which asks for nothing, or the path
segment satisfies it. -/
def segOK (E : Regexp) (routeSegment urlSegment : Str) : Bool :=
  decide (routeSegment = "...".toList) || segPasses E routeSegment urlSegment

/-- The key under which `route.match` stores the value of a named segment. -/
def keyOf (routeSegment : Str) : Str :=
  if Index routeSegment '|' = -1 then routeSegment
  else routeSegment.take (Index routeSegment '|').toNat

/-- The method list `Handle` registers routes for: HEAD is appended when GET is listed
without it, and all methods stand in for an empty list. -/
def normalizedMethods (methods : List Str) : List Str :=
  let methods :=
    if contains methods MethodGet && !contains methods MethodHead then methods ++ [MethodHead]
    else methods
  if methods.length = 0 then allMethods else methods

/-- How often a method name occurs in a list. -/
def occurrences (x : Str) : List Str → Nat
  | [] => 0
  | y :: ys => (if y = x then 1 else 0) + occurrences x ys

/-- One call of a setup: `Use(mw)` or `Handle(pattern, handler, methods...)`. -/
inductive Op (H : Type) where
  | use (mw : H → H)
  | handle (pattern : Str) (handler : H) (methods : List Str)

/-- The router after one call. -/
def Mux.step {H : Type} (m : Mux H) (U : Char → Char) : Op H → Mux H
  | .use mw => m.Use mw
  | .handle pattern handler methods => m.Handle U pattern handler methods

/-- The router after a sequence of calls. -/
def Mux.run {H : Type} (m : Mux H) (U : Char → Char) (ops : List (Op H)) : Mux H :=
  ops.foldl (fun m op => m.step U op) m

/-- The middlewares a sequence of calls adds, in order. -/
def usesOf {H : Type} : List (Op H) → List (H → H)
  | [] => []
  | .use mw :: ops => mw :: usesOf ops
  | .handle _ _ _ :: ops => usesOf ops

/-- The routes a sequence of calls registers when it starts with the middleware list
`mws`: each `Handle` yields one route per method of its normalized list, and the
handler of these routes is the base handler inside the middlewares of `mws` followed by
those the sequence has added before that call, the first of them outermost. -/
def scopeRoutes {H : Type} (U : Char → Char) : List (H → H) → List (Op H) → List (route H)
  | _, [] => []
  | mws, .use mw :: ops => scopeRoutes U (mws ++ [mw]) ops
  | mws, .handle pattern handler methods :: ops =>
    (normalizedMethods methods).map (fun method =>
      (⟨ToUpper U method, Split pattern '/', HasSuffix pattern "/...".toList,
        mws.foldr (fun mw h => mw h) handler⟩ : route H)) ++ scopeRoutes U mws ops

/-- The router set up by `New()`, then `Use` for each middleware of `mws`, then `Handle`
for each registration `(pattern, handler, methods)` of `regs`, in this order. -/
def configured {H : Type} (U : Char → Char) (nf mna opt : H) (mws : List (H → H))
    (regs : List (Str × H × List Str)) : Mux H :=
  ((New nf mna opt).run U (mws.map Op.use)).run U
    (regs.map fun reg => Op.handle reg.1 reg.2.1 reg.2.2)

/-- Whether the pattern segment is a named segment with a constraint, `:name|rx`. -/
def constrained (routeSegment : Str) : Bool :=
  HasPrefix routeSegment ":".toList && decide (Index routeSegment '|' ≠ -1)

/-- The constraint text of a constrained segment: what follows the first `|`. -/
def rxText (routeSegment : Str) : Str :=
  routeSegment.drop (Index routeSegment '|' + 1).toNat

/-- Every constraint among the segments is a well-formed regular expression. -/
def wellFormed (E : Regexp) (segments : List Str) : Prop :=
  ∀ seg ∈ segments, constrained seg = true → E.compiles (rxText seg) = true

/-- The loop of `route.match` read on the pattern segments and the remaining path
segments side by side, without the index. -/
def matchLockstep (E : Regexp) : List Str → List Str → Ctx → Result (Ctx × Bool)
  | [], _, ctx => .ok (ctx, true)
  | _ :: _, [], ctx => .ok (ctx, false)
  | rs :: segs, u :: us, ctx =>
    if rs = "...".toList then .ok (ctx, true)
    else if HasPrefix rs ":".toList then
      if Index rs '|' = -1 then matchLockstep E segs us (WithValue ctx rs u)
      else if E.compiles (rxText rs) then
        if MatchString E (rxText rs) u then
          matchLockstep E segs us (WithValue ctx (rs.take (Index rs '|').toNat) u)
        else .ok (ctx, false)
      else .panic (.regexpCompile (rxText rs))
    else if u = rs then matchLockstep E segs us ctx
    else .ok (ctx, false)

/-- The bindings of a successful match, the most recent first: every named segment
before the first `...` binds the path segment at its position under its key. -/
def bindings : List Str → List Str → Ctx
  | [], _ => []
  | _ :: _, [] => []
  | rs :: segs, u :: us =>
    if rs = "...".toList then []
    else if HasPrefix rs ":".toList then bindings segs us ++ [(keyOf rs, u)]
    else bindings segs us

/-! ## Routers to run examples with

Handlers are numbers; the stock handlers are 0 (NotFound), 1 (MethodNotAllowed) and
2 (Options). -/

/-- Some lines of the upper-case tables, to run examples with: the long s goes to `S`
and the small letters of Latin-1 go to their capitals; other characters are left as
they are by this sample. -/
def sampleUpper (r : Char) : Char :=
  if r.toNat = 0x17F then 'S'
  else if 0xE0 ≤ r.toNat ∧ r.toNat ≤ 0xFE ∧ r.toNat ≠ 0xF7 then Char.ofNat (r.toNat - 32)
  else r

/-- `GET /a` (and with it `HEAD /a`) goes to handler 7, `POST /a` to handler 8. -/
def getThenPost : Mux Nat :=
  ((New 0 1 2).Handle sampleUpper "/a".toList 7 [MethodGet]).Handle sampleUpper "/a".toList 8 [MethodPost]

/-- `OPTIONS /a` is registered explicitly, with handler 7. -/
def explicitOptions : Mux Nat := (New 0 1 2).Handle sampleUpper "/a".toList 7 [MethodOptions]

/-- `GET /a` goes to handler 7; after that, `/a` is registered with no methods for
handler 8. -/
def getThenAll : Mux Nat :=
  ((New 0 1 2).Handle sampleUpper "/a".toList 7 [MethodGet]).Handle sampleUpper "/a".toList 8 []

/-- `GET /users/:id|^[0-9]+$` goes to handler 7. -/
def usersById : Mux Nat := (New 0 1 2).Handle sampleUpper "/users/:id|^[0-9]+$".toList 7 [MethodGet]

/-- `GET /users/:id|[0-9]+`, a constraint without anchors, goes to handler 7. -/
def usersByDigits : Mux Nat := (New 0 1 2).Handle sampleUpper "/users/:id|[0-9]+".toList 7 [MethodGet]

/-- `GET /static/...` goes to handler 7. -/
def staticFiles : Mux Nat := (New 0 1 2).Handle sampleUpper "/static/...".toList 7 [MethodGet]

/-- A router whose handlers are traces: a middleware puts its number in front.  `GET /a`
is registered with the base handler `[7]` before the middleware 9 is added. -/
def useAfterHandle : Mux (List Nat) :=
  ((New [0] [1] [2]).Handle sampleUpper "/a".toList [7] [MethodGet]).Use (fun h => 9 :: h)

/-- The middlewares 8 and 9 are added in this order, then `GET /a` is registered with
the base handler `[7]`. -/
def useThenHandle : Mux (List Nat) :=
  (((New [0] [1] [2]).Use (fun h => 8 :: h)).Use (fun h => 9 :: h)).Handle sampleUpper
    "/a".toList [7] [MethodGet]

/-- The router with middleware 8 and `GET /a`; a group adds middleware 9 and registers
`GET /b`; after the group `GET /c` is registered. -/
def grouped : Mux (List Nat) :=
  ((((New [0] [1] [2]).Use (fun h => 8 :: h)).Handle sampleUpper "/a".toList [7] [MethodGet]).Group
    (fun mm => mm.run sampleUpper [.use (fun h => 9 :: h), .handle "/b".toList [7] [MethodGet]])).Handle sampleUpper
    "/c".toList [7] [MethodGet]

/-- `POST /a` is registered with the method written in lower case. -/
def lowerCasePost : Mux Nat := (New 0 1 2).Handle sampleUpper "/a".toList 7 ["post".toList]

/-- `GET /a` is registered with the method written in lower case. -/
def lowerCaseGet : Mux Nat := (New 0 1 2).Handle sampleUpper "/a".toList 7 ["get".toList]

/-- `GET /users/:id|(`: the constraint is no regular expression. -/
def badConstraint : Mux Nat := (New 0 1 2).Handle sampleUpper "/users/:id|(".toList 7 [MethodGet]

/-- The marker `...` in the middle of a pattern. -/
def dotsInside : Mux Nat := (New 0 1 2).Handle sampleUpper "/.../a".toList 7 [MethodGet]

/-- `GET /users/:id` goes to handler 7 and `POST /users/:name` to handler 8. -/
def twoNames : Mux Nat :=
  ((New 0 1 2).Handle sampleUpper "/users/:id".toList 7 [MethodGet]).Handle sampleUpper "/users/:name".toList 8
    [MethodPost]

/-! ## Lemmas on the helpers -/

theorem contains_iff (s : List Str) (e : Str) : contains s e = true ↔ e ∈ s := by
  induction s with
  | nil => simp [contains]
  | cons a s ih =>
    by_cases h : a = e
    · simp [contains, h]
    · have h' : ¬ e = a := fun h'' => h h''.symm
      simp [contains, h, h', ih]

theorem contains_eq_false_iff (s : List Str) (e : Str) : contains s e = false ↔ e ∉ s := by
  rw [← contains_iff]; cases contains s e <;> simp

theorem mem_firstSeen (xs : List Str) (y : Str) : y ∈ firstSeen xs ↔ y ∈ xs := by
  induction xs with
  | nil => simp [firstSeen]
  | cons x xs ih =>
    by_cases h : y = x
    · simp [firstSeen, h]
    · simp [firstSeen, h, List.mem_filter, ih]

theorem nodup_firstSeen (xs : List Str) : (firstSeen xs).Nodup := by
  induction xs with
  | nil => simp [firstSeen]
  | cons x xs ih =>
    simp only [firstSeen, List.nodup_cons]
    exact ⟨by simp [List.mem_filter], ih.filter _⟩

theorem accumulate_eq (xs : List Str) : ∀ allowed : List Str,
    accumulate allowed xs = allowed ++ (firstSeen xs).filter fun y => !contains allowed y := by
  induction xs with
  | nil => intro allowed; simp [accumulate, firstSeen]
  | cons x xs ih =>
    intro allowed
    by_cases h : x ∈ allowed
    · have hc : contains allowed x = true := (contains_iff _ _).2 h
      simp only [accumulate, hc, firstSeen, List.filter_cons, List.filter_filter]
      simp only [Bool.not_true, Bool.false_eq_true, if_false, ih, List.append_cancel_left_eq]
      apply List.filter_congr
      intro y _
      by_cases hy : y ∈ allowed
      · simp [(contains_iff _ _).2 hy]
      · have hyx : y ≠ x := fun e => hy (e ▸ h)
        simp [(contains_eq_false_iff _ _).2 hy, hyx]
    · have hc : contains allowed x = false := (contains_eq_false_iff _ _).2 h
      simp only [accumulate, hc, firstSeen, List.filter_cons, List.filter_filter]
      simp only [Bool.not_false, if_true, ih, List.append_assoc, List.singleton_append,
        List.append_cancel_left_eq, List.cons.injEq, true_and]
      apply List.filter_congr
      intro y _
      by_cases hy : y ∈ allowed
      · have hyx : y ≠ x := fun e => h (e ▸ hy)
        have : contains (allowed ++ [x]) y = true := (contains_iff _ _).2 (by simp [hy])
        simp [this, (contains_iff _ _).2 hy]
      · by_cases hyx : y = x
        · subst hyx
          have : contains (allowed ++ [y]) y = true := (contains_iff _ _).2 (by simp)
          simp [this]
        · have : contains (allowed ++ [x]) y = false :=
            (contains_eq_false_iff _ _).2 (by simp [hy, hyx])
          simp [this, (contains_eq_false_iff _ _).2 hy, hyx]

theorem accumulate_nil (xs : List Str) : accumulate [] xs = firstSeen xs := by
  rw [accumulate_eq]
  simp [contains]

/-! ## Lemmas on `Split` -/

theorem Split_ne_nil (s : Str) (c : Char) : Split s c ≠ [] := by
  cases s with
  | nil => simp [Split]
  | cons x xs =>
    by_cases h : x = c
    · simp [Split, h]
    · simp only [Split, h, if_false]
      split <;> simp

theorem Join_cons_cons (x : Char) (seg : Str) (segs : List Str) (sep : Str) :
    Join ((x :: seg) :: segs) sep = x :: Join (seg :: segs) sep := by
  cases segs <;> simp [Join]

theorem Join_Split (s : Str) (c : Char) : Join (Split s c) [c] = s := by
  induction s with
  | nil => simp [Split, Join]
  | cons x xs ih =>
    by_cases h : x = c
    · simp only [Split, h, if_true]
      obtain ⟨seg, segs, hs⟩ := List.exists_cons_of_ne_nil (Split_ne_nil xs c)
      rw [hs] at ih ⊢
      simp [Join, ih]
    · simp only [Split, h, if_false]
      obtain ⟨seg, segs, hs⟩ := List.exists_cons_of_ne_nil (Split_ne_nil xs c)
      rw [hs] at ih ⊢
      simp [Join_cons_cons, ih]

theorem Split_injective (a b : Str) (c : Char) (h : Split a c = Split b c) : a = b := by
  rw [← Join_Split a c, ← Join_Split b c, h]

theorem Split_append (a b : Str) (c : Char) :
    Split (a ++ c :: b) c = Split a c ++ Split b c := by
  induction a with
  | nil => simp [Split]
  | cons x xs ih =>
    by_cases h : x = c
    · simp [Split, h, ih]
    · obtain ⟨seg, segs, hs⟩ := List.exists_cons_of_ne_nil (Split_ne_nil xs c)
      simp [Split, h, ih, hs]

theorem Split_wildcard (p : Str) :
    Split (p ++ "/...".toList) '/' = Split p '/' ++ ["...".toList] := by
  have : p ++ "/...".toList = p ++ '/' :: "...".toList := rfl
  rw [this, Split_append]
  rfl

theorem wildcard_mem_of_HasSuffix (pattern : Str) (h : HasSuffix pattern "/...".toList = true) :
    "...".toList ∈ Split pattern '/' := by
  rw [HasSuffix, List.isSuffixOf_iff_suffix] at h
  obtain ⟨p, rfl⟩ := h
  rw [Split_wildcard]
  simp

/-! ## Lemmas on `route.match` -/

section Match

variable (E : Regexp)

theorem Index_append (a b : Str) (c : Char) (h : c ∉ a) :
    Index (a ++ c :: b) c = (a.length : Int) := by
  induction a with
  | nil => simp [Index]
  | cons x xs ih =>
    have hx : ¬ x = c := fun e => h (by simp [e])
    have hxs : c ∉ xs := fun e => h (by simp [e])
    have hne : ¬ ((xs.length : Int) = -1) := by omega
    have ih' := ih hxs
    rw [List.cons_append, Index]
    simp only [hx, if_false, ih', hne, List.length_cons]
    push_cast
    rfl

theorem guard_in_range (url : List Str) (i : Nat) (h : i < url.length) :
    ¬ ((i : Int) > (url.length : Int) - 1) := by
  omega

theorem getElem?_front (front : List Str) (u : Str) (rest : List Str) :
    (front ++ u :: rest)[front.length]? = some u := by
  rw [List.getElem?_append_right (Nat.le_refl _)]
  simp

theorem matchLoop_literal (segs : List Str) : ∀ (front us : List Str) (ctx : Ctx),
    (∀ s ∈ segs, HasPrefix s ":".toList = false ∧ s ≠ "...".toList) →
    us.length = segs.length →
    matchLoop E (front ++ us) segs front.length ctx = .ok (ctx, decide (us = segs)) := by
  induction segs with
  | nil =>
    intro front us ctx _ hlen
    have : us = [] := List.length_eq_zero.1 hlen
    simp [matchLoop, this]
  | cons s segs ih =>
    intro front us ctx hlit hlen
    cases us with
    | nil => simp at hlen
    | cons u us =>
      obtain ⟨hs1, hs2⟩ := hlit s (by simp)
      have hrange := guard_in_range (front ++ u :: us) front.length (by simp)
      have hstep := ih (front ++ [u]) us ctx (fun s' hs' => hlit s' (by simp [hs']))
        (by simpa using hlen)
      simp only [List.append_assoc, List.singleton_append, List.length_append,
        List.length_singleton] at hstep
      rw [matchLoop]
      simp only [hrange, if_false, hs2, hs1, Bool.false_eq_true, getElem?_front]
      by_cases hu : u = s
      · subst hu
        simp [hstep]
      · simp [hu]

theorem match_eq_matchLoop {H : Type} (r : route H) (ctx : Ctx) (url : List Str)
    (h : r.wildcard = true ∨ url.length = r.segments.length) :
    r.match E ctx url = matchLoop E url r.segments 0 ctx := by
  unfold route.match
  rcases h with h | h
  · simp [h]
  · simp [h]

theorem matchLoop_step (url : List Str) (rs u : Str) (rest : List Str) (i : Nat) (ctx : Ctx)
    (hi : url[i]? = some u) (hne : rs ≠ "...".toList) (hpass : segPasses E rs u = true) :
    matchLoop E url (rs :: rest) i ctx =
      matchLoop E url rest (i + 1)
        (if HasPrefix rs ":".toList then WithValue ctx (keyOf rs) u else ctx) := by
  have hlt : i < url.length := by
    by_contra hge
    rw [List.getElem?_eq_none (by omega)] at hi
    cases hi
  have hrange := guard_in_range url i hlt
  rw [matchLoop]
  simp only [hrange, if_false, hne, hi]
  by_cases hp : HasPrefix rs ":".toList = true
  · simp only [hp, if_true]
    by_cases hpipe : Index rs '|' = -1
    · simp [hpipe, keyOf]
    · simp only [segPasses, hp, if_true, hpipe, if_false, Bool.and_eq_true] at hpass
      simp [hpipe, keyOf, MustCompile, hpass.1, hpass.2]
  · simp only [segPasses, hp, Bool.false_eq_true, if_false, decide_eq_true_eq] at hpass
    simp only [hp, Bool.false_eq_true, if_false, hpass, ne_eq, not_true_eq_false]

theorem matchLoop_wildcard (url : List Str) (rest : List Str) (i : Nat) (ctx : Ctx)
    (hlt : i < url.length) :
    matchLoop E url ("...".toList :: rest) i ctx = .ok (ctx, true) := by
  have hrange := guard_in_range url i hlt
  rw [matchLoop]
  simp [hrange]

theorem matchLoop_passes (pre us : List Str)
    (h : List.Forall₂ (fun rs u => rs ≠ "...".toList ∧ segPasses E rs u = true) pre us) :
    ∀ (front tail rest : List Str) (ctx : Ctx), ∃ ctx',
      matchLoop E (front ++ us ++ tail) (pre ++ rest) front.length ctx =
        matchLoop E (front ++ us ++ tail) rest (front.length + us.length) ctx' := by
  induction h with
  | nil => intro front tail rest ctx; exact ⟨ctx, by simp⟩
  | @cons rs u pre us hhead _ ih =>
    intro front tail rest ctx
    have hi : (front ++ u :: us ++ tail)[front.length]? = some u := by
      rw [List.append_assoc, List.cons_append]
      exact getElem?_front _ _ _
    obtain ⟨ctx', hctx'⟩ := ih (front ++ [u]) tail rest
      (if HasPrefix rs ":".toList then WithValue ctx (keyOf rs) u else ctx)
    refine ⟨ctx', ?_⟩
    rw [List.cons_append, matchLoop_step E _ rs u _ _ ctx hi hhead.1 hhead.2]
    simp only [List.append_assoc, List.singleton_append, List.length_append,
      List.length_singleton, List.cons_append, List.length_cons, List.nil_append,
      List.length_nil, Nat.zero_add] at hctx' ⊢
    rw [hctx']
    congr 1
    omega

theorem matchLoop_succeeds (post vs : List Str)
    (h : List.Forall₂ (fun rs u => segOK E rs u = true) post vs) :
    ∀ (front tail rest : List Str),
      (∀ c', ∃ c, matchLoop E (front ++ vs ++ tail) rest (front.length + vs.length) c' =
        .ok (c, true)) →
      ∀ ctx, ∃ c, matchLoop E (front ++ vs ++ tail) (post ++ rest) front.length ctx =
        .ok (c, true) := by
  induction h with
  | nil => intro front tail rest hrest ctx; simpa using hrest ctx
  | @cons rs u post vs hhead _ ih =>
    intro front tail rest hrest ctx
    have hi : (front ++ u :: vs ++ tail)[front.length]? = some u := by
      rw [List.append_assoc, List.cons_append]
      exact getElem?_front _ _ _
    by_cases hw : rs = "...".toList
    · subst hw
      exact ⟨ctx, matchLoop_wildcard E _ _ _ ctx (by simp)⟩
    · have hpass : segPasses E rs u = true := by
        have h' := hhead
        simp only [segOK, Bool.or_eq_true, decide_eq_true_eq] at h'
        exact h'.resolve_left hw
      have hrest' : ∀ c', ∃ c, matchLoop E ((front ++ [u]) ++ vs ++ tail) rest
          ((front ++ [u]).length + vs.length) c' = .ok (c, true) := by
        intro c'
        obtain ⟨c, hc⟩ := hrest c'
        refine ⟨c, ?_⟩
        simp only [List.append_assoc, List.singleton_append, List.length_append,
          List.length_singleton, List.cons_append, List.length_cons, List.nil_append,
          List.length_nil, Nat.zero_add] at hc ⊢
        rw [← hc]
        congr 1
        omega
      obtain ⟨c, hc⟩ := ih (front ++ [u]) tail rest hrest'
        (if HasPrefix rs ":".toList then WithValue ctx (keyOf rs) u else ctx)
      refine ⟨c, ?_⟩
      rw [List.cons_append, matchLoop_step E _ rs u _ _ ctx hi hw hpass]
      simpa using hc

theorem matchLoop_ctx (url : List Str) (segs : List Str) : ∀ (i : Nat) (ctx c : Ctx) (b : Bool),
    matchLoop E url segs i ctx = .ok (c, b) →
    ∃ new : Ctx, c = new ++ ctx ∧ ∀ kv ∈ new, ∃ j rs, segs[j]? = some rs ∧
      HasPrefix rs ":".toList = true ∧ url[i + j]? = some kv.2 ∧ kv.1 = keyOf rs := by
  induction segs with
  | nil =>
    intro i ctx c b h
    simp only [matchLoop, Result.ok.injEq, Prod.mk.injEq] at h
    exact ⟨[], by simp [h.1]⟩
  | cons rs segs ih =>
    intro i ctx c b h
    have hdone : ∀ b', Result.ok (ctx, b') = Result.ok (c, b) →
        ∃ new : Ctx, c = new ++ ctx ∧ ∀ kv ∈ new, ∃ j rs', (rs :: segs)[j]? = some rs' ∧
          HasPrefix rs' ":".toList = true ∧ url[i + j]? = some kv.2 ∧ kv.1 = keyOf rs' := by
      intro b' hb
      simp only [Result.ok.injEq, Prod.mk.injEq] at hb
      exact ⟨[], by simp [hb.1]⟩
    have hrec : ∀ (u : Str) (ctx' : Ctx), url[i]? = some u →
        (ctx' = ctx ∨ (HasPrefix rs ":".toList = true ∧ ctx' = (keyOf rs, u) :: ctx)) →
        matchLoop E url segs (i + 1) ctx' = .ok (c, b) →
        ∃ new : Ctx, c = new ++ ctx ∧ ∀ kv ∈ new, ∃ j rs', (rs :: segs)[j]? = some rs' ∧
          HasPrefix rs' ":".toList = true ∧ url[i + j]? = some kv.2 ∧ kv.1 = keyOf rs' := by
      intro u ctx' hu hctx' hm
      obtain ⟨new, hnew, hall⟩ := ih (i + 1) ctx' c b hm
      have hshift : ∀ kv ∈ new, ∃ j rs', (rs :: segs)[j]? = some rs' ∧
          HasPrefix rs' ":".toList = true ∧ url[i + j]? = some kv.2 ∧ kv.1 = keyOf rs' := by
        intro kv hkv
        obtain ⟨j, rs', h1, h2, h3, h4⟩ := hall kv hkv
        refine ⟨j + 1, rs', by simpa using h1, h2, ?_, h4⟩
        rw [← h3]
        congr 1
        omega
      rcases hctx' with rfl | ⟨hp, rfl⟩
      · exact ⟨new, hnew, hshift⟩
      · refine ⟨new ++ [(keyOf rs, u)], by simp [hnew], ?_⟩
        intro kv hkv
        rcases List.mem_append.1 hkv with hkv | hkv
        · exact hshift kv hkv
        · simp only [List.mem_singleton] at hkv
          subst hkv
          exact ⟨0, rs, by simp, hp, by simpa using hu, rfl⟩
    rw [matchLoop] at h
    split at h
    · exact hdone _ h
    · split at h
      · exact hdone _ h
      · split at h
        · rename_i hp
          simp only at h
          split at h
          · rename_i hpipe
            split at h
            · cases h
            · rename_i u hu
              exact hrec u _ hu (Or.inr ⟨hp, by simp [WithValue, keyOf, hpipe]⟩) h
          · rename_i hpipe
            split at h
            · cases h
            · split at h
              · cases h
              · rename_i u hu
                split at h
                · exact hrec u _ hu (Or.inr ⟨hp, by simp [WithValue, keyOf, hpipe]⟩) h
                · exact hdone _ h
        · split at h
          · cases h
          · rename_i u hu
            split at h
            · exact hdone _ h
            · exact hrec u _ hu (Or.inl rfl) h

end Match

/-! ## Lemmas on the loop of `ServeHTTP` -/

section Serve

variable {H : Type} {U : Char → Char} (E : Regexp) (m : Mux H) (method : Str) (ctx : Ctx) (url : List Str)

theorem serveLoop_skip (pre rest : List (route H)) : ∀ allowed : List Str,
    (∀ q ∈ pre, ∃ c b, q.match E ctx url = .ok (c, b) ∧ (b = true → q.method ≠ method)) →
    serveLoop E m method ctx url (pre ++ rest) allowed =
      serveLoop E m method ctx url rest
        (accumulate allowed ((pre.filter fun q => pathMatches E q ctx url).map (·.method))) := by
  induction pre with
  | nil => intro allowed _; simp [accumulate]
  | cons q pre ih =>
    intro allowed hpre
    obtain ⟨c, b, hq, hb⟩ := hpre q (by simp)
    have hpre' : ∀ q ∈ pre, ∃ c b, q.match E ctx url = .ok (c, b) ∧
        (b = true → q.method ≠ method) := fun q' hq' => hpre q' (by simp [hq'])
    cases b with
    | false =>
      simp [serveLoop, hq, pathMatches, ih allowed hpre']
    | true =>
      have hne : ¬ method = q.method := fun e => hb rfl e.symm
      by_cases hc : contains allowed q.method = true
      · simp [serveLoop, hq, pathMatches, hne, hc, accumulate, ih allowed hpre']
      · simp only [Bool.not_eq_true] at hc
        simp [serveLoop, hq, pathMatches, hne, hc, accumulate, ih _ hpre']

theorem serveLoop_miss (r : route H) (rest : List (route H)) (allowed : List Str) (c : Ctx)
    (hr : r.match E ctx url = .ok (c, false)) :
    serveLoop E m method ctx url (r :: rest) allowed =
      serveLoop E m method ctx url rest allowed := by
  rw [serveLoop, hr]
  simp

theorem serveLoop_hit (r : route H) (post : List (route H)) (allowed : List Str) (c : Ctx)
    (hr : r.match E ctx url = .ok (c, true)) (hm : r.method = method) :
    serveLoop E m method ctx url (r :: post) allowed = .ok (.Match r.handler c) := by
  simp [serveLoop, hr, hm]

theorem serveLoop_hit_or_panic (routes : List (route H)) : ∀ allowed : List Str,
    (∃ r ∈ routes, ∃ c, r.match E ctx url = .ok (c, true) ∧ r.method = method) →
    (∃ p, serveLoop E m method ctx url routes allowed = .panic p) ∨
      ∃ h c, serveLoop E m method ctx url routes allowed = .ok (.Match h c) := by
  induction routes with
  | nil => intro allowed h; obtain ⟨r, hr, _⟩ := h; cases hr
  | cons q routes ih =>
    intro allowed hex
    obtain ⟨r, hr, c, hc, hm⟩ := hex
    rw [serveLoop]
    cases hq : q.match E ctx url with
    | panic p => exact .inl ⟨p, rfl⟩
    | ok res =>
      obtain ⟨c', b⟩ := res
      cases b with
      | true =>
        by_cases hmq : method = q.method
        · exact .inr ⟨q.handler, c', by simp [hmq]⟩
        · have hrest : ∃ r ∈ routes, ∃ c, r.match E ctx url = .ok (c, true) ∧
              r.method = method := by
            rcases List.mem_cons.1 hr with rfl | hr'
            · exact absurd hm.symm hmq
            · exact ⟨r, hr', c, hc, hm⟩
          simp only [if_true, hmq, if_false]
          split
          · exact ih _ hrest
          · exact ih _ hrest
      | false =>
        have hrest : ∃ r ∈ routes, ∃ c, r.match E ctx url = .ok (c, true) ∧
            r.method = method := by
          rcases List.mem_cons.1 hr with rfl | hr'
          · rw [hq] at hc; cases hc
          · exact ⟨r, hr', c, hc, hm⟩
        simpa using ih allowed hrest

theorem serveLoop_same_pattern (segments : List Str) (wildcard : Bool) (handler : H) (c : Ctx)
    (hmatch : ∀ x : Str, (⟨x, segments, wildcard, handler⟩ : route H).match E ctx url =
      .ok (c, true))
    (ms : List Str) (rest : List (route H)) : ∀ allowed : List Str,
    (∃ x ∈ ms, ToUpper U x = method) →
    serveLoop E m method ctx url
      (ms.map (fun x => (⟨ToUpper U x, segments, wildcard, handler⟩ : route H)) ++ rest) allowed =
      .ok (.Match handler c) := by
  induction ms with
  | nil => intro allowed h; obtain ⟨x, hx, _⟩ := h; cases hx
  | cons x ms ih =>
    intro allowed hex
    rw [List.map_cons, List.cons_append, serveLoop, hmatch]
    by_cases hx : ToUpper U x = method
    · simp [hx]
    · have hx' : ¬ method = ToUpper U x := fun e => hx e.symm
      have hrest : ∃ y ∈ ms, ToUpper U y = method := by
        obtain ⟨y, hy, hym⟩ := hex
        rcases List.mem_cons.1 hy with rfl | hy'
        · exact absurd hym hx
        · exact ⟨y, hy', hym⟩
      simp only [if_true, hx', if_false]
      split
      · exact ih _ hrest
      · exact ih _ hrest

end Serve

/-! ## Lemmas on `Handle` -/

section Register

variable {H : Type} {U : Char → Char}

theorem wrap_routes (m : Mux H) (routes : List (route H)) (handler : H) :
    ({ m with routes := routes } : Mux H).wrap handler = m.wrap handler := rfl

theorem Handle_foldl (pattern : Str) (handler : H) (methods : List Str) : ∀ m : Mux H,
    (methods.foldl (fun (m : Mux H) method =>
      { m with routes := m.routes ++
          [{ method := ToUpper U method
             segments := Split pattern '/'
             wildcard := HasSuffix pattern "/...".toList
             handler := m.wrap handler }] }) m) =
      { m with routes := m.routes ++ methods.map fun method =>
          (⟨ToUpper U method, Split pattern '/', HasSuffix pattern "/...".toList,
            m.wrap handler⟩ : route H) } := by
  induction methods with
  | nil => intro m; simp
  | cons x xs ih =>
    intro m
    rw [List.foldl_cons, ih]
    simp [wrap_routes]

theorem Handle_eq (m : Mux H) (pattern : Str) (handler : H) (methods : List Str) :
    m.Handle U pattern handler methods =
      { m with routes := m.routes ++ (normalizedMethods methods).map fun method =>
          (⟨ToUpper U method, Split pattern '/', HasSuffix pattern "/...".toList,
            m.wrap handler⟩ : route H) } := by
  rw [Mux.Handle]
  simp only [Handle_foldl]
  rfl

theorem match_congr (E : Regexp) (r q : route H) (ctx : Ctx) (url : List Str)
    (h1 : r.segments = q.segments) (h2 : r.wildcard = q.wildcard) :
    r.match E ctx url = q.match E ctx url := by
  simp [route.match, h1, h2]

theorem normalizedMethods_get (methods : List Str) (hget : contains methods MethodGet = true)
    (hhead : contains methods MethodHead = false) :
    normalizedMethods methods = methods ++ [MethodHead] := by
  simp [normalizedMethods, hget, hhead]

theorem ToUpper_allMethods : ∀ x ∈ allMethods, ToUpper U x = x := by
  intro x hx
  simp only [allMethods, List.mem_cons, List.mem_singleton, List.not_mem_nil, or_false] at hx
  rcases hx with rfl | rfl | rfl | rfl | rfl | rfl | rfl | rfl | rfl <;> rfl

theorem normalizedMethods_nil : normalizedMethods [] = allMethods := by
  decide

end Register

/-! ## Dispatch (C1 to C4) -/

section Dispatch

variable {H : Type} {U : Char → Char} (E : Regexp) (m : Mux H) (method path : Str) (ctx : Ctx)

theorem serveLoop_notFound (routes : List (route H)) : ∀ (allowed : List Str) (h : H) (c : Ctx),
    serveLoop E m method ctx (Split path '/') routes allowed = .ok (.NotFound h c) →
    allowed = [] ∧ ∀ r ∈ routes, ∃ c', r.match E ctx (Split path '/') = .ok (c', false) := by
  induction routes with
  | nil =>
    intro allowed h c hs
    cases allowed with
    | nil => simp
    | cons a as =>
      simp only [serveLoop, fallback, List.length_cons] at hs
      split at hs
      · split at hs <;> cases hs
      · omega
  | cons q routes ih =>
    intro allowed h c hs
    unfold serveLoop at hs
    split at hs
    · cases hs
    · rename_i c' ok hq
      cases ok with
      | false =>
        simp only [Bool.false_eq_true, if_false] at hs
        obtain ⟨h1, h2⟩ := ih allowed h c hs
        refine ⟨h1, ?_⟩
        intro r hr
        rcases List.mem_cons.1 hr with rfl | hr
        · exact ⟨c', hq⟩
        · exact h2 r hr
      | true =>
        simp only [if_true] at hs
        split at hs
        · cases hs
        · split at hs
          · have := (ih _ h c hs).1
            simp at this
          · rename_i hc
            simp only [Bool.not_eq_true, Bool.not_eq_false_eq_eq_true] at hc
            have h1 := (ih _ h c hs).1
            subst h1
            simp [contains] at hc

theorem serveLoop_no_hit (hall : ∀ q ∈ m.routes, ∃ c b,
      q.match E ctx (Split path '/') = .ok (c, b) ∧ (b = true → q.method ≠ method)) :
    m.ServeHTTP E method path ctx = .ok (fallback m method ctx (firstSeen
      ((m.routes.filter fun q => pathMatches E q ctx (Split path '/')).map (·.method)))) := by
  have h := serveLoop_skip E m method ctx (Split path '/') m.routes [] [] hall
  rw [List.append_nil] at h
  rw [Mux.ServeHTTP, h, accumulate_nil, serveLoop]

/-- C1: when the routes registered before a route `r` are each tried and passed over
(their pattern does not match the path, or it matches under another method), and the
pattern of `r` matches the path with the request's method, `ServeHTTP` invokes the
handler of `r` with the context `r.match` produced.  Earlier routes that match the path
under a different method do not block it. -/
theorem ServeHTTP_first_hit (pre post : List (route H)) (r : route H) (c : Ctx)
    (hroutes : m.routes = pre ++ r :: post)
    (hpre : ∀ q ∈ pre, ∃ c' b, q.match E ctx (Split path '/') = .ok (c', b) ∧
      (b = true → q.method ≠ method))
    (hr : r.match E ctx (Split path '/') = .ok (c, true))
    (hm : r.method = method) :
    m.ServeHTTP E method path ctx = .ok (.Match r.handler c) := by
  rw [Mux.ServeHTTP, hroutes, serveLoop_skip E m method ctx _ pre (r :: post) [] hpre]
  exact serveLoop_hit E m method ctx _ r post _ c hr hm

/-- The second-registered method is served: `POST /a` reaches handler 8 although the
routes `GET /a` and `HEAD /a` come first in the table. -/
theorem ServeHTTP_first_hit_witness :
    getThenPost.ServeHTTP miniRE MethodPost "/a".toList [] = .ok (.Match 8 []) :=
  ServeHTTP_first_hit miniRE getThenPost MethodPost "/a".toList []
    [⟨MethodGet, Split "/a".toList '/', false, 7⟩, ⟨MethodHead, Split "/a".toList '/', false, 7⟩]
    [] ⟨MethodPost, Split "/a".toList '/', false, 8⟩ [] (by decide)
    (by
      intro q hq
      simp only [List.mem_cons, List.mem_singleton, List.not_mem_nil, or_false] at hq
      rcases hq with rfl | rfl
      · exact ⟨[], true, by decide, fun _ => by decide⟩
      · exact ⟨[], true, by decide, fun _ => by decide⟩)
    (by decide) rfl

/-- C2: the outcome of `ServeHTTP` is Not Found exactly when `route.match` rejects the
path for every route of the table, whatever the route's method; the handler invoked is
then the wrapped `NotFound` handler, with the request's own context. -/
theorem ServeHTTP_notFound_iff :
    ((∃ h c, m.ServeHTTP E method path ctx = .ok (.NotFound h c)) ↔
      ∀ r ∈ m.routes, ∃ c, r.match E ctx (Split path '/') = .ok (c, false)) ∧
    ((∀ r ∈ m.routes, ∃ c, r.match E ctx (Split path '/') = .ok (c, false)) →
      m.ServeHTTP E method path ctx = .ok (.NotFound (m.wrap m.NotFound) ctx)) := by
  have hback : (∀ r ∈ m.routes, ∃ c, r.match E ctx (Split path '/') = .ok (c, false)) →
      m.ServeHTTP E method path ctx = .ok (.NotFound (m.wrap m.NotFound) ctx) := by
    intro hall
    have hall' : ∀ q ∈ m.routes, ∃ c b, q.match E ctx (Split path '/') = .ok (c, b) ∧
        (b = true → q.method ≠ method) := by
      intro q hq
      obtain ⟨c, hc⟩ := hall q hq
      exact ⟨c, false, hc, fun h => by cases h⟩
    have hnil : (m.routes.filter fun q => pathMatches E q ctx (Split path '/')) = [] := by
      rw [List.filter_eq_nil_iff]
      intro q hq
      obtain ⟨c, hc⟩ := hall q hq
      simp [pathMatches, hc]
    rw [serveLoop_no_hit E m method path ctx hall', hnil]
    simp [firstSeen, fallback]
  refine ⟨⟨?_, fun hall => ⟨_, _, hback hall⟩⟩, hback⟩
  rintro ⟨h, c, hs⟩
  exact (serveLoop_notFound E m method path ctx m.routes [] h c hs).2

/-- No route of the router with `GET /a`, `HEAD /a` and `POST /a` matches `/b`, and the
outcome for `GET /b` is Not Found. -/
theorem ServeHTTP_notFound_iff_witness :
    (∀ r ∈ getThenPost.routes, ∃ c, r.match miniRE [] (Split "/b".toList '/') = .ok (c, false)) ∧
      getThenPost.ServeHTTP miniRE MethodGet "/b".toList [] = .ok (.NotFound 0 []) :=
  have hall : ∀ r ∈ getThenPost.routes, ∃ c,
      r.match miniRE [] (Split "/b".toList '/') = .ok (c, false) := by
    intro r hr
    have : r.match miniRE [] (Split "/b".toList '/') = .ok ([], false) := by
      revert r; decide
    exact ⟨_, this⟩
  ⟨hall, (ServeHTTP_notFound_iff miniRE getThenPost MethodGet "/b".toList []).2 hall⟩

theorem no_hit_of_normal (hnp : ∀ r ∈ m.routes, ∃ c b, r.match E ctx (Split path '/') = .ok (c, b))
    (hnone : ∀ r ∈ m.routes, pathMatches E r ctx (Split path '/') = true → r.method ≠ method) :
    ∀ q ∈ m.routes, ∃ c b, q.match E ctx (Split path '/') = .ok (c, b) ∧
      (b = true → q.method ≠ method) := by
  intro q hq
  obtain ⟨c, b, hc⟩ := hnp q hq
  refine ⟨c, b, hc, fun hb => hnone q hq ?_⟩
  simp [pathMatches, hc, hb]

theorem allowed_pos (hsome : ∃ r ∈ m.routes, pathMatches E r ctx (Split path '/') = true) :
    (firstSeen ((m.routes.filter fun q => pathMatches E q ctx (Split path '/')).map
      (·.method))).length > 0 := by
  obtain ⟨r, hr, hp⟩ := hsome
  apply List.length_pos_of_mem (a := r.method)
  rw [mem_firstSeen]
  exact List.mem_map.2 ⟨r, List.mem_filter.2 ⟨hr, hp⟩, rfl⟩

theorem mem_allowed (x : Str) :
    x ∈ firstSeen ((m.routes.filter fun q => pathMatches E q ctx (Split path '/')).map
      (·.method)) ↔
    ∃ r ∈ m.routes, pathMatches E r ctx (Split path '/') = true ∧ r.method = x := by
  rw [mem_firstSeen, List.mem_map]
  constructor
  · rintro ⟨r, hr, rfl⟩
    exact ⟨r, (List.mem_filter.1 hr).1, (List.mem_filter.1 hr).2, rfl⟩
  · rintro ⟨r, hr, hp, rfl⟩
    exact ⟨r, List.mem_filter.2 ⟨hr, hp⟩, rfl⟩

theorem serveLoop_hit_exists (routes : List (route H)) : ∀ allowed : List Str,
    (∀ r ∈ routes, ∃ c b, r.match E ctx (Split path '/') = .ok (c, b)) →
    (∃ r ∈ routes, pathMatches E r ctx (Split path '/') = true ∧ r.method = method) →
    ∃ r c, routes.find? (fun r => pathMatches E r ctx (Split path '/') &&
        decide (r.method = method)) = some r ∧
      r.match E ctx (Split path '/') = .ok (c, true) ∧
      serveLoop E m method ctx (Split path '/') routes allowed = .ok (.Match r.handler c) := by
  intro allowed hnp hex
  have hfind : (routes.find? (fun r => pathMatches E r ctx (Split path '/') &&
      decide (r.method = method))).isSome := by
    rw [List.find?_isSome]
    obtain ⟨r, hr, hp, hm⟩ := hex
    exact ⟨r, hr, by simp [hp, hm]⟩
  obtain ⟨r, hr⟩ := Option.isSome_iff_exists.1 hfind
  obtain ⟨hp, pre, post, hsplit, hpre⟩ := List.find?_eq_some.1 hr
  simp only [Bool.and_eq_true, decide_eq_true_eq] at hp
  obtain ⟨c, b, hc⟩ := hnp r (by simp [hsplit])
  have hb : b = true := by simpa [pathMatches, hc] using hp.1
  subst hb
  refine ⟨r, c, hr, hc, ?_⟩
  have hpre' : ∀ q ∈ pre, ∃ c b, q.match E ctx (Split path '/') = .ok (c, b) ∧
      (b = true → q.method ≠ method) := by
    intro q hq
    obtain ⟨c', b', hc'⟩ := hnp q (by simp [hsplit, hq])
    refine ⟨c', b', hc', fun hb' hm' => ?_⟩
    have := hpre q hq
    simp [pathMatches, hc', hb', hm'] at this
  rw [hsplit, serveLoop_skip E m method ctx _ pre (r :: post) allowed hpre']
  exact serveLoop_hit E m method ctx _ r post _ c hc hp.2

/-- C3: for a request method other than OPTIONS, when matching returns for every route,
some route's pattern matches the path and no path-matching route has the request's
method, the outcome is Method Not Allowed, and the Allow value is the methods of the
path-matching routes, each once in first-seen order, then OPTIONS, joined by ", ".  The
listed methods are exactly the methods registered for the path. -/
theorem ServeHTTP_methodNotAllowed (hopt : method ≠ MethodOptions)
    (hnp : ∀ r ∈ m.routes, ∃ c b, r.match E ctx (Split path '/') = .ok (c, b))
    (hsome : ∃ r ∈ m.routes, pathMatches E r ctx (Split path '/') = true)
    (hnone : ∀ r ∈ m.routes, pathMatches E r ctx (Split path '/') = true → r.method ≠ method) :
    m.ServeHTTP E method path ctx =
      .ok (.MethodNotAllowed
        (Join (firstSeen ((m.routes.filter fun q => pathMatches E q ctx (Split path '/')).map
          (·.method)) ++ [MethodOptions]) ", ".toList)
        (m.wrap m.MethodNotAllowed) ctx) ∧
    (firstSeen ((m.routes.filter fun q => pathMatches E q ctx (Split path '/')).map
      (·.method))).Nodup ∧
    ∀ x, x ∈ firstSeen ((m.routes.filter fun q => pathMatches E q ctx (Split path '/')).map
        (·.method)) ↔
      ∃ r ∈ m.routes, pathMatches E r ctx (Split path '/') = true ∧ r.method = x := by
  refine ⟨?_, nodup_firstSeen _, mem_allowed E m path ctx⟩
  rw [serveLoop_no_hit E m method path ctx (no_hit_of_normal E m method path ctx hnp hnone)]
  simp [fallback, allowed_pos E m path ctx hsome, hopt]

/-- With `GET /a`, `HEAD /a` and `POST /a` registered, `PUT /a` is answered with
Method Not Allowed and `Allow: GET, HEAD, POST, OPTIONS`. -/
theorem ServeHTTP_methodNotAllowed_witness :
    getThenPost.ServeHTTP miniRE MethodPut "/a".toList [] =
      .ok (.MethodNotAllowed "GET, HEAD, POST, OPTIONS".toList 1 []) :=
  (ServeHTTP_methodNotAllowed miniRE getThenPost MethodPut "/a".toList [] (by decide)
    (by
      intro r hr
      have : r.match miniRE [] (Split "/a".toList '/') = .ok ([], true) := by
        revert r; decide
      exact ⟨_, _, this⟩)
    ⟨⟨MethodGet, Split "/a".toList '/', false, 7⟩, by decide, by decide⟩
    (by decide)).1

/-- C4, refuted as stated: with `OPTIONS /a` registered explicitly, an OPTIONS request
for `/a` matches that route and is dispatched to its handler 7; the outcome is not the
automatic Options one (which would invoke the stock handler 2 and set `Allow`). -/
theorem ServeHTTP_options_counterexample :
    pathMatches miniRE (⟨MethodOptions, Split "/a".toList '/', false, 7⟩ : route Nat) []
        (Split "/a".toList '/') = true ∧
      explicitOptions.routes = [⟨MethodOptions, Split "/a".toList '/', false, 7⟩] ∧
      explicitOptions.ServeHTTP miniRE MethodOptions "/a".toList [] = .ok (.Match 7 []) ∧
      explicitOptions.ServeHTTP miniRE MethodOptions "/a".toList [] ≠
        .ok (.Options "OPTIONS".toList 2 []) := by
  decide

/-- C4, amended: for an OPTIONS request to a path that some route's pattern matches
(matching returning for every route), the outcome is never Method Not Allowed.  When no
path-matching route is registered under OPTIONS it is the automatic Options outcome with
the computed Allow value; when one is, the request is dispatched to the first such
route. -/
theorem ServeHTTP_options
    (hnp : ∀ r ∈ m.routes, ∃ c b, r.match E ctx (Split path '/') = .ok (c, b))
    (hsome : ∃ r ∈ m.routes, pathMatches E r ctx (Split path '/') = true) :
    ((∀ r ∈ m.routes, pathMatches E r ctx (Split path '/') = true →
        r.method ≠ MethodOptions) →
      m.ServeHTTP E MethodOptions path ctx =
        .ok (.Options
          (Join (firstSeen ((m.routes.filter fun q => pathMatches E q ctx (Split path '/')).map
            (·.method)) ++ [MethodOptions]) ", ".toList)
          (m.wrap m.Options) ctx)) ∧
    ((∃ r ∈ m.routes, pathMatches E r ctx (Split path '/') = true ∧
        r.method = MethodOptions) →
      ∃ r c, m.routes.find? (fun r => pathMatches E r ctx (Split path '/') &&
          decide (r.method = MethodOptions)) = some r ∧
        r.match E ctx (Split path '/') = .ok (c, true) ∧
        m.ServeHTTP E MethodOptions path ctx = .ok (.Match r.handler c)) ∧
    ∀ allow h c, m.ServeHTTP E MethodOptions path ctx ≠ .ok (.MethodNotAllowed allow h c) := by
  have h1 : (∀ r ∈ m.routes, pathMatches E r ctx (Split path '/') = true →
        r.method ≠ MethodOptions) →
      m.ServeHTTP E MethodOptions path ctx =
        .ok (.Options
          (Join (firstSeen ((m.routes.filter fun q => pathMatches E q ctx (Split path '/')).map
            (·.method)) ++ [MethodOptions]) ", ".toList)
          (m.wrap m.Options) ctx) := by
    intro hnone
    rw [serveLoop_no_hit E m MethodOptions path ctx
      (no_hit_of_normal E m MethodOptions path ctx hnp hnone)]
    simp [fallback, allowed_pos E m path ctx hsome]
  have h2 : (∃ r ∈ m.routes, pathMatches E r ctx (Split path '/') = true ∧
        r.method = MethodOptions) →
      ∃ r c, m.routes.find? (fun r => pathMatches E r ctx (Split path '/') &&
          decide (r.method = MethodOptions)) = some r ∧
        r.match E ctx (Split path '/') = .ok (c, true) ∧
        m.ServeHTTP E MethodOptions path ctx = .ok (.Match r.handler c) :=
    fun hex => serveLoop_hit_exists E m MethodOptions path ctx m.routes [] hnp hex
  refine ⟨h1, h2, ?_⟩
  intro allow h c hs
  by_cases hex : ∃ r ∈ m.routes, pathMatches E r ctx (Split path '/') = true ∧
      r.method = MethodOptions
  · obtain ⟨r, c', _, _, hm⟩ := h2 hex
    rw [hm] at hs
    cases hs
  · have hnone : ∀ r ∈ m.routes, pathMatches E r ctx (Split path '/') = true →
        r.method ≠ MethodOptions := fun r hr hp hm => hex ⟨r, hr, hp, hm⟩
    rw [h1 hnone] at hs
    cases hs

/-- With only GET (and HEAD) and POST registered for `/a`, `OPTIONS /a` gets the
automatic Options outcome with `Allow: GET, HEAD, POST, OPTIONS`. -/
theorem ServeHTTP_options_witness :
    getThenPost.ServeHTTP miniRE MethodOptions "/a".toList [] =
      .ok (.Options "GET, HEAD, POST, OPTIONS".toList 2 []) :=
  (ServeHTTP_options miniRE getThenPost "/a".toList []
    (by
      intro r hr
      have : r.match miniRE [] (Split "/a".toList '/') = .ok ([], true) := by
        revert r; decide
      exact ⟨_, _, this⟩)
    ⟨⟨MethodGet, Split "/a".toList '/', false, 7⟩, by decide, by decide⟩).1 (by decide)

end Dispatch

/-! ## Matching (C5 to C8) -/

section Matching

variable {H : Type} {U : Char → Char} (E : Regexp)

/-- C8: for a pattern whose segments are all literal (none begins with `:`, none is
`...`) and a route registered for it, the route's pattern matches a path exactly when
the path string equals the pattern string, and the context comes back unchanged: no
parameter is bound. -/
theorem match_literal_iff (r : route H) (pattern path : Str) (ctx : Ctx)
    (hseg : r.segments = Split pattern '/')
    (hw : r.wildcard = HasSuffix pattern "/...".toList)
    (hlit : ∀ s ∈ Split pattern '/', HasPrefix s ":".toList = false ∧ s ≠ "...".toList) :
    r.match E ctx (Split path '/') = .ok (ctx, decide (path = pattern)) := by
  have hw' : r.wildcard = false := by
    rw [hw]
    cases hs : HasSuffix pattern "/...".toList with
    | false => rfl
    | true => exact absurd rfl (hlit _ (wildcard_mem_of_HasSuffix pattern hs)).2
  have hdec : decide (Split path '/' = Split pattern '/') = decide (path = pattern) := by
    by_cases h : path = pattern
    · simp [h]
    · have : Split path '/' ≠ Split pattern '/' := fun e => h (Split_injective _ _ _ e)
      simp [h, this]
  by_cases hlen : (Split path '/').length = (Split pattern '/').length
  · have := matchLoop_literal E (Split pattern '/') [] (Split path '/') ctx hlit hlen
    simp only [List.nil_append, List.length_nil] at this
    simp [route.match, hw', hseg, hlen, this, hdec]
  · have hne : path ≠ pattern := fun e => hlen (by rw [e])
    simp [route.match, hw', hseg, hlen, hne]

/-- The pattern `/about/us` matches the path `/about/us` and binds nothing. -/
theorem match_literal_iff_witness :
    (⟨MethodGet, Split "/about/us".toList '/', false, 7⟩ : route Nat).match miniRE []
      (Split "/about/us".toList '/') = .ok ([], true) :=
  match_literal_iff miniRE ⟨MethodGet, Split "/about/us".toList '/', false, 7⟩
    "/about/us".toList "/about/us".toList [] rfl (by decide) (by decide)

/-- C5, the code at the failing input: matching `/users/42` against
`/users/:id|^[0-9]+$` succeeds, and in the context it produces the value `42` is stored
under the key `:id`, with the sigil; `Param(ctx, "id")` panics on the nil assertion,
only `Param(ctx, ":id")` returns `42`. -/
theorem Param_after_match_keeps_sigil :
    usersById.ServeHTTP miniRE MethodGet "/users/42".toList [] =
        .ok (.Match 7 [(":id".toList, "42".toList)]) ∧
      Param [(":id".toList, "42".toList)] "id".toList = .panic .nilAssertion ∧
      Param [(":id".toList, "42".toList)] ":id".toList = .ok "42".toList ∧
      ((New 0 1 2).Handle sampleUpper "/users/:id".toList 7 [MethodGet]).ServeHTTP miniRE MethodGet
        "/users/42".toList [] = .ok (.Match 7 [(":id".toList, "42".toList)]) := by
  decide

/-- C6, refuted as stated: the constraint `[0-9]+` does not match the whole of `a1`,
yet `/users/:id|[0-9]+` matches the path `/users/a1`, because `MatchString` looks for a
match anywhere inside the segment; the request is dispatched.  And behind an earlier
`...` segment a constraint is not evaluated at all: `/.../:id|^[0-9]+$` matches
`/x/abc`. -/
theorem match_regex_counterexample :
    FullMatch miniRE "[0-9]+".toList "a1".toList = false ∧
      MatchString miniRE "[0-9]+".toList "a1".toList = true ∧
      (⟨MethodGet, Split "/users/:id|[0-9]+".toList '/', false, 7⟩ : route Nat).match miniRE []
        (Split "/users/a1".toList '/') = .ok ([(":id".toList, "a1".toList)], true) ∧
      usersByDigits.ServeHTTP miniRE MethodGet "/users/a1".toList [] =
        .ok (.Match 7 [(":id".toList, "a1".toList)]) ∧
      MatchString miniRE "^[0-9]+$".toList "abc".toList = false ∧
      (⟨MethodGet, Split "/.../:id|^[0-9]+$".toList '/',
        HasSuffix "/.../:id|^[0-9]+$".toList "/...".toList, 7⟩ : route Nat).match miniRE []
        (Split "/x/abc".toList '/') = .ok ([], true) := by
  decide

/-- C6, amended: let a pattern have the constrained named segment `:name|rx` at some
position, `rx` being well-formed, and let a path satisfy the other segments: those
before the position are no wildcard markers and are satisfied one by one, those after it
are satisfied one by one, and further path segments occur only for a wildcard route.
Then `route.match` returns what `rx.MatchString` returns on the path segment at the
position, that is whether `rx` matches somewhere inside it; and when it returns false
`ServeHTTP` just goes on with the next route. -/
theorem match_regex (r : route H) (pre post : List Str) (name rx : Str)
    (us vs extra : List Str) (u : Str) (ctx : Ctx)
    (hseg : r.segments = pre ++ (':' :: name ++ '|' :: rx) :: post)
    (hname : '|' ∉ name)
    (hcomp : E.compiles rx = true)
    (hpre : List.Forall₂ (fun rs u => rs ≠ "...".toList ∧ segPasses E rs u = true) pre us)
    (hpost : List.Forall₂ (fun rs u => segOK E rs u = true) post vs)
    (hextra : r.wildcard = true ∨ extra = []) :
    (∃ c, r.match E ctx (us ++ u :: vs ++ extra) = .ok (c, MatchString E rx u)) ∧
    (MatchString E rx u = false →
      ∀ (m : Mux H) (method : Str) (rest : List (route H)) (allowed : List Str),
        serveLoop E m method ctx (us ++ u :: vs ++ extra) (r :: rest) allowed =
          serveLoop E m method ctx (us ++ u :: vs ++ extra) rest allowed) := by
  have hlen1 : pre.length = us.length := hpre.length_eq
  have hlen2 : post.length = vs.length := hpost.length_eq
  have hcheck : r.wildcard = true ∨ (us ++ u :: vs ++ extra).length = r.segments.length := by
    rcases hextra with hw | he
    · exact .inl hw
    · right
      simp [he, hseg, hlen1, hlen2]
  have hidx : Index (':' :: name ++ '|' :: rx) '|' = (name.length : Int) + 1 := by
    have := Index_append (':' :: name) rx '|' (by simp [hname])
    simpa using this
  have hmatch : ∃ c, r.match E ctx (us ++ u :: vs ++ extra) = .ok (c, MatchString E rx u) := by
    obtain ⟨ctx', hctx'⟩ := matchLoop_passes E pre us hpre [] (u :: vs ++ extra)
      ((':' :: name ++ '|' :: rx) :: post) ctx
    simp only [List.nil_append, List.length_nil, Nat.zero_add] at hctx'
    have hurl : us ++ (u :: vs ++ extra) = us ++ u :: vs ++ extra := by simp
    rw [hurl] at hctx'
    have hi : (us ++ u :: vs ++ extra)[us.length]? = some u := by
      rw [List.append_assoc, List.cons_append]
      exact getElem?_front _ _ _
    have hrange := guard_in_range (us ++ u :: vs ++ extra) us.length (by simp)
    have hdrop : List.drop (name.length + 1 + 1) (':' :: name ++ '|' :: rx) = rx := by
      simp
    have htake : List.take (name.length + 1) (':' :: name ++ '|' :: rx) = ':' :: name := by
      simp
    have hne : ¬ ((name.length : Int) + 1 = -1) := by omega
    have hstep : matchLoop E (us ++ u :: vs ++ extra) ((':' :: name ++ '|' :: rx) :: post)
        us.length ctx' =
        if MatchString E rx u then
          matchLoop E (us ++ u :: vs ++ extra) post (us.length + 1)
            (WithValue ctx' (':' :: name) u)
        else .ok (ctx', false) := by
      rw [matchLoop]
      have hdots : ¬ ((':' :: name ++ '|' :: rx) = "...".toList) := by
        intro e
        have := congrArg List.head? e
        simp at this
      have hpfx : HasPrefix (':' :: name ++ '|' :: rx) ":".toList = true := by
        simp [HasPrefix]
      have hn1 : ((name.length : Int) + 1 + 1).toNat = name.length + 1 + 1 := by omega
      have hn2 : ((name.length : Int) + 1).toNat = name.length + 1 := by omega
      simp only [hrange, if_false, hdots, hpfx, if_true, hidx, hne, hn1, hn2, hdrop, htake,
        MustCompile, hcomp, hi]
    rw [match_eq_matchLoop E r ctx _ hcheck, hseg, hctx', hstep]
    cases hms : MatchString E rx u with
    | false => exact ⟨ctx', by simp⟩
    | true =>
      obtain ⟨c, hc⟩ := matchLoop_succeeds E post vs hpost (us ++ [u]) extra []
        (fun c' => ⟨c', by simp [matchLoop]⟩) (WithValue ctx' (':' :: name) u)
      refine ⟨c, ?_⟩
      simp only [List.append_nil, List.append_assoc, List.singleton_append, List.length_append,
        List.length_singleton, List.cons_append, List.nil_append] at hc
      simpa using hc
  refine ⟨hmatch, ?_⟩
  intro hfalse m method rest allowed
  obtain ⟨c, hc⟩ := hmatch
  rw [hfalse] at hc
  exact serveLoop_miss E m method ctx _ r rest allowed c hc

/-- The pattern `/users/:id|^[0-9]+$` matches `/users/42` and does not match
`/users/abc`. -/
theorem match_regex_witness :
    (∃ c, (⟨MethodGet, Split "/users/:id|^[0-9]+$".toList '/', false, 7⟩ : route Nat).match
        miniRE [] (Split "/users/42".toList '/') = .ok (c, true)) ∧
      (∃ c, (⟨MethodGet, Split "/users/:id|^[0-9]+$".toList '/', false, 7⟩ : route Nat).match
        miniRE [] (Split "/users/abc".toList '/') = .ok (c, false)) :=
  ⟨(match_regex miniRE ⟨MethodGet, Split "/users/:id|^[0-9]+$".toList '/', false, 7⟩
      ["".toList, "users".toList] [] "id".toList "^[0-9]+$".toList
      ["".toList, "users".toList] [] [] "42".toList [] (by decide) (by decide) (by decide)
      (.cons ⟨by decide, by decide⟩ (.cons ⟨by decide, by decide⟩ .nil)) .nil (.inr rfl)).1,
    (match_regex miniRE ⟨MethodGet, Split "/users/:id|^[0-9]+$".toList '/', false, 7⟩
      ["".toList, "users".toList] [] "id".toList "^[0-9]+$".toList
      ["".toList, "users".toList] [] [] "abc".toList [] (by decide) (by decide) (by decide)
      (.cons ⟨by decide, by decide⟩ (.cons ⟨by decide, by decide⟩ .nil)) .nil (.inr rfl)).1⟩

/-- C7, refuted as stated: the path `/static` has as many segments as `/static/...`
has non-wildcard segments, and they satisfy them one by one, yet the pattern does not
match: the request falls through to Not Found. -/
theorem match_wildcard_counterexample :
    Split "/static/...".toList '/' = ["".toList, "static".toList, "...".toList] ∧
      Split "/static".toList '/' = ["".toList, "static".toList] ∧
      segOK miniRE "".toList "".toList = true ∧
      segOK miniRE "static".toList "static".toList = true ∧
      (⟨MethodGet, Split "/static/...".toList '/', HasSuffix "/static/...".toList "/...".toList,
        7⟩ : route Nat).match miniRE [] (Split "/static".toList '/') = .ok ([], false) ∧
      staticFiles.ServeHTTP miniRE MethodGet "/static".toList [] = .ok (.NotFound 0 []) := by
  decide

/-- C7, amended: a route registered for a pattern `p/...` matches every path that has
more segments than `p`, at least one standing at the place of the marker, and whose
leading segments satisfy the segments of `p` one by one.  The context it returns extends
the given one with bindings of named segments of `p` only, each to the path segment at
its position: nothing is bound for the tail. -/
theorem match_wildcard (r : route H) (p : Str) (ctx : Ctx) (us tail : List Str)
    (hseg : r.segments = Split (p ++ "/...".toList) '/')
    (hw : r.wildcard = HasSuffix (p ++ "/...".toList) "/...".toList)
    (hsat : List.Forall₂ (fun rs u => segOK E rs u = true) (Split p '/') us)
    (htail : tail ≠ []) :
    ∃ new : Ctx, r.match E ctx (us ++ tail) = .ok (new ++ ctx, true) ∧
      ∀ kv ∈ new, ∃ j rs, j < (Split p '/').length ∧ (Split p '/')[j]? = some rs ∧
        HasPrefix rs ":".toList = true ∧ us[j]? = some kv.2 ∧ kv.1 = keyOf rs := by
  have hw' : r.wildcard = true := by
    rw [hw, HasSuffix, List.isSuffixOf_iff_suffix]
    exact ⟨p, rfl⟩
  have hlen : (Split p '/').length = us.length := hsat.length_eq
  have htl : 0 < tail.length := List.length_pos.2 htail
  obtain ⟨c, hc⟩ := matchLoop_succeeds E (Split p '/') us hsat [] tail ["...".toList]
    (fun c' => ⟨c', matchLoop_wildcard E _ _ _ c' (by simp; omega)⟩) ctx
  simp only [List.nil_append, List.length_nil] at hc
  obtain ⟨new, hnew, hall⟩ := matchLoop_ctx E _ _ _ _ _ _ hc
  refine ⟨new, ?_, ?_⟩
  · rw [match_eq_matchLoop E r ctx _ (.inl hw'), hseg, Split_wildcard, hc, hnew]
  · intro kv hkv
    obtain ⟨j, rs, h1, h2, h3, h4⟩ := hall kv hkv
    have hj : j < (Split p '/').length := by
      by_contra hge
      rw [List.getElem?_append_right (by omega)] at h1
      have hrs : rs = "...".toList := by
        cases hk : j - (Split p '/').length with
        | zero => rw [hk] at h1; simpa using h1.symm
        | succ k => rw [hk] at h1; simp at h1
      rw [hrs] at h2
      revert h2
      decide
    refine ⟨j, rs, hj, ?_, h2, ?_, h4⟩
    · rw [← h1, List.getElem?_append_left hj]
    · rw [← h3, Nat.zero_add, List.getElem?_append_left (by omega)]

/-- The pattern `/static/:dir/...` matches `/static/css/site/main.css`, and binds the
second segment only. -/
theorem match_wildcard_witness :
    ∃ new : Ctx, (⟨MethodGet, Split "/static/:dir/...".toList '/', true, 7⟩ : route Nat).match
        miniRE [] (Split "/static/css/site/main.css".toList '/') = .ok (new ++ [], true) ∧
      ∀ kv ∈ new, ∃ j rs, j < (Split "/static/:dir".toList '/').length ∧
        (Split "/static/:dir".toList '/')[j]? = some rs ∧
        HasPrefix rs ":".toList = true ∧
        ["".toList, "static".toList, "css".toList][j]? = some kv.2 ∧ kv.1 = keyOf rs :=
  match_wildcard miniRE ⟨MethodGet, Split "/static/:dir/...".toList '/', true, 7⟩
    "/static/:dir".toList [] ["".toList, "static".toList, "css".toList]
    ["site".toList, "main.css".toList] rfl (by decide)
    (.cons (by decide) (.cons (by decide) (.cons (by decide) .nil))) (by decide)

end Matching

/-! ## Registration (C9 and C10) -/

section Registration

variable {H : Type} {U : Char → Char} (E : Regexp)

/-- C9: when the method list contains GET and not HEAD, the table after `Handle`
contains, next to the GET route, a HEAD route with the same pattern and the same
handler; and a HEAD request to a path the pattern matches is dispatched to that handler,
with the bindings of the match, provided that no route registered earlier takes it. -/
theorem Handle_GET_adds_HEAD (m : Mux H) (pattern : Str) (handler : H) (methods : List Str)
    (hget : contains methods MethodGet = true)
    (hhead : contains methods MethodHead = false) :
    (⟨MethodHead, Split pattern '/', HasSuffix pattern "/...".toList, m.wrap handler⟩ : route H) ∈
        (m.Handle U pattern handler methods).routes ∧
    (⟨MethodGet, Split pattern '/', HasSuffix pattern "/...".toList, m.wrap handler⟩ : route H) ∈
        (m.Handle U pattern handler methods).routes ∧
    ∀ (path : Str) (ctx c : Ctx),
      (∀ q ∈ m.routes, ∃ c' b, q.match E ctx (Split path '/') = .ok (c', b) ∧
        (b = true → q.method ≠ MethodHead)) →
      (⟨MethodHead, Split pattern '/', HasSuffix pattern "/...".toList, m.wrap handler⟩ :
        route H).match E ctx (Split path '/') = .ok (c, true) →
      (m.Handle U pattern handler methods).ServeHTTP E MethodHead path ctx =
        .ok (.Match (m.wrap handler) c) := by
  have hroutes : (m.Handle U pattern handler methods).routes =
      m.routes ++ (methods ++ [MethodHead]).map fun method =>
        (⟨ToUpper U method, Split pattern '/', HasSuffix pattern "/...".toList,
          m.wrap handler⟩ : route H) := by
    rw [Handle_eq, normalizedMethods_get methods hget hhead]
  have hup1 : ToUpper U MethodHead = MethodHead := rfl
  have hup2 : ToUpper U MethodGet = MethodGet := rfl
  refine ⟨?_, ?_, ?_⟩
  · rw [hroutes]
    apply List.mem_append_right
    exact List.mem_map.2 ⟨MethodHead, by simp, by rw [hup1]⟩
  · rw [hroutes]
    apply List.mem_append_right
    exact List.mem_map.2 ⟨MethodGet, by simp [(contains_iff _ _).1 hget], by rw [hup2]⟩
  · intro path ctx c hpre hmatch
    rw [Mux.ServeHTTP, hroutes, serveLoop_skip E _ MethodHead ctx _ m.routes _ [] hpre]
    have key := @serveLoop_same_pattern H U E (m.Handle U pattern handler methods) MethodHead ctx
      (Split path '/') (Split pattern '/') (HasSuffix pattern "/...".toList) (m.wrap handler) c
      (fun x => by rw [← hmatch]; exact match_congr E _ _ ctx _ rfl rfl)
      (methods ++ [MethodHead]) []
    rw [List.append_nil] at key
    exact key _ ⟨MethodHead, by simp, hup1⟩

/-- After `Handle("/a", 7, "GET")` on a new router the table holds `GET /a` and
`HEAD /a`, and `HEAD /a` is dispatched to handler 7. -/
theorem Handle_GET_adds_HEAD_witness :
    (⟨MethodHead, Split "/a".toList '/', false, 7⟩ : route Nat) ∈
        ((New 0 1 2).Handle sampleUpper "/a".toList 7 [MethodGet]).routes ∧
      ((New 0 1 2).Handle sampleUpper "/a".toList 7 [MethodGet]).ServeHTTP miniRE MethodHead "/a".toList []
        = .ok (.Match 7 []) :=
  ⟨(Handle_GET_adds_HEAD miniRE (New 0 1 2) "/a".toList 7 [MethodGet] (by decide)
      (by decide)).1,
    (Handle_GET_adds_HEAD miniRE (New 0 1 2) "/a".toList 7 [MethodGet] (by decide)
      (by decide)).2.2 "/a".toList [] [] (by intro q hq; cases hq) (by decide)⟩

/-- C10, refuted as stated: `/a` is registered with no methods for handler 8 on a router
that already has `GET /a` with handler 7; eleven routes are in the table, and `GET /a`
is dispatched to handler 7, not to handler 8. -/
theorem Handle_no_methods_counterexample :
    getThenAll.routes.length = 2 + 9 ∧
      (⟨MethodGet, Split "/a".toList '/', false, 8⟩ : route Nat) ∈ getThenAll.routes ∧
      (⟨MethodGet, Split "/a".toList '/', false, 8⟩ : route Nat).match miniRE []
        (Split "/a".toList '/') = .ok ([], true) ∧
      getThenAll.ServeHTTP miniRE MethodGet "/a".toList [] = .ok (.Match 7 []) ∧
      getThenAll.ServeHTTP miniRE MethodGet "/a".toList [] ≠ .ok (.Match 8 []) := by
  decide

/-- C10, amended: `Handle` with an empty method list appends exactly nine routes, one
for each of GET, HEAD, POST, PUT, PATCH, DELETE, CONNECT, OPTIONS and TRACE, in that
order, all with the pattern and the handler.  A request with one of these methods to a
path the pattern matches never yields Method Not Allowed or Not Found, and it is
dispatched to that handler provided that no route registered earlier takes it. -/
theorem Handle_no_methods (m : Mux H) (pattern : Str) (handler : H) :
    (m.Handle U pattern handler []).routes =
        m.routes ++ allMethods.map (fun method =>
          (⟨method, Split pattern '/', HasSuffix pattern "/...".toList, m.wrap handler⟩ :
            route H)) ∧
    allMethods = ["GET".toList, "HEAD".toList, "POST".toList, "PUT".toList, "PATCH".toList,
        "DELETE".toList, "CONNECT".toList, "OPTIONS".toList, "TRACE".toList] ∧
    (allMethods.map (fun method =>
      (⟨method, Split pattern '/', HasSuffix pattern "/...".toList, m.wrap handler⟩ :
        route H))).length = 9 ∧
    ∀ method ∈ allMethods, ∀ (path : Str) (ctx c : Ctx),
      (⟨method, Split pattern '/', HasSuffix pattern "/...".toList, m.wrap handler⟩ :
        route H).match E ctx (Split path '/') = .ok (c, true) →
      ((∀ q ∈ m.routes, ∃ c' b, q.match E ctx (Split path '/') = .ok (c', b) ∧
          (b = true → q.method ≠ method)) →
        (m.Handle U pattern handler []).ServeHTTP E method path ctx =
          .ok (.Match (m.wrap handler) c)) ∧
      (∀ allow h c', (m.Handle U pattern handler []).ServeHTTP E method path ctx ≠
          .ok (.MethodNotAllowed allow h c') ∧
        (m.Handle U pattern handler []).ServeHTTP E method path ctx ≠ .ok (.NotFound h c')) := by
  have hupper : ∀ x ∈ allMethods, ToUpper U x = x := ToUpper_allMethods
  have hmap : allMethods.map (fun method =>
      (⟨ToUpper U method, Split pattern '/', HasSuffix pattern "/...".toList, m.wrap handler⟩ :
        route H)) =
      allMethods.map (fun method =>
        (⟨method, Split pattern '/', HasSuffix pattern "/...".toList, m.wrap handler⟩ :
          route H)) := by
    apply List.map_congr_left
    intro x hx
    rw [hupper x hx]
  have hroutes : (m.Handle U pattern handler []).routes =
      m.routes ++ allMethods.map (fun method =>
        (⟨method, Split pattern '/', HasSuffix pattern "/...".toList, m.wrap handler⟩ :
          route H)) := by
    rw [Handle_eq, normalizedMethods_nil, hmap]
  refine ⟨hroutes, rfl, by simp [allMethods], ?_⟩
  intro method hmem path ctx c hmatch
  constructor
  · intro hpre
    rw [Mux.ServeHTTP, hroutes, ← hmap,
      serveLoop_skip E _ method ctx _ m.routes _ [] hpre]
    have key := @serveLoop_same_pattern H U E (m.Handle U pattern handler []) method ctx
      (Split path '/') (Split pattern '/') (HasSuffix pattern "/...".toList) (m.wrap handler) c
      (fun x => by rw [← hmatch]; exact match_congr E _ _ ctx _ rfl rfl)
      allMethods []
    rw [List.append_nil] at key
    exact key _ ⟨method, hmem, hupper method hmem⟩
  · intro allow h c'
    have hex : ∃ r ∈ (m.Handle U pattern handler []).routes, ∃ c,
        r.match E ctx (Split path '/') = .ok (c, true) ∧ r.method = method := by
      refine ⟨⟨method, Split pattern '/', HasSuffix pattern "/...".toList, m.wrap handler⟩,
        ?_, c, hmatch, rfl⟩
      rw [hroutes]
      exact List.mem_append_right _ (List.mem_map.2 ⟨method, hmem, rfl⟩)
    rcases serveLoop_hit_or_panic E (m.Handle U pattern handler []) method ctx (Split path '/')
      (m.Handle U pattern handler []).routes [] hex with ⟨p, hp⟩ | ⟨h', c'', hh⟩
    · rw [Mux.ServeHTTP, hp]
      exact ⟨fun e => (by cases e), fun e => (by cases e)⟩
    · rw [Mux.ServeHTTP, hh]
      exact ⟨fun e => (by cases e), fun e => (by cases e)⟩

/-- On a new router, `Handle("/a", 7)` with no methods registers nine routes, and
`PATCH /a` is dispatched to handler 7. -/
theorem Handle_no_methods_witness :
    ((New 0 1 2).Handle sampleUpper "/a".toList 7 []).routes.length = 9 ∧
      ((New 0 1 2).Handle sampleUpper "/a".toList 7 []).ServeHTTP miniRE MethodPatch "/a".toList [] =
        .ok (.Match 7 []) :=
  ⟨by decide,
    ((Handle_no_methods miniRE (New 0 1 2) "/a".toList 7).2.2.2 MethodPatch (by decide)
      "/a".toList [] [] (by decide)).1 (by intro q hq; cases hq)⟩

end Registration

/-! ## Middleware (C11 to C13) -/

section Middleware

variable {H : Type} {U : Char → Char}

theorem wrap_eq_foldr (m : Mux H) (h : H) :
    m.wrap h = m.middlewares.foldr (fun mw h => mw h) h := by
  rw [Mux.wrap, List.foldl_reverse]

theorem Handle_fields (m : Mux H) (pattern : Str) (handler : H) (methods : List Str) :
    (m.Handle U pattern handler methods).routes =
        m.routes ++ (normalizedMethods methods).map (fun method =>
          (⟨ToUpper U method, Split pattern '/', HasSuffix pattern "/...".toList,
            m.middlewares.foldr (fun mw h => mw h) handler⟩ : route H)) ∧
      (m.Handle U pattern handler methods).middlewares = m.middlewares ∧
      (m.Handle U pattern handler methods).NotFound = m.NotFound ∧
      (m.Handle U pattern handler methods).MethodNotAllowed = m.MethodNotAllowed ∧
      (m.Handle U pattern handler methods).Options = m.Options := by
  rw [Handle_eq, wrap_eq_foldr]
  exact ⟨rfl, rfl, rfl, rfl, rfl⟩

theorem run_fields (ops : List (Op H)) : ∀ m : Mux H,
    (m.run U ops).routes = m.routes ++ scopeRoutes U m.middlewares ops ∧
      (m.run U ops).middlewares = m.middlewares ++ usesOf ops ∧
      (m.run U ops).NotFound = m.NotFound ∧
      (m.run U ops).MethodNotAllowed = m.MethodNotAllowed ∧
      (m.run U ops).Options = m.Options := by
  induction ops with
  | nil => intro m; simp [Mux.run, scopeRoutes, usesOf]
  | cons op ops ih =>
    intro m
    cases op with
    | use mw =>
      obtain ⟨h1, h2, h3, h4, h5⟩ := ih (m.Use mw)
      have hrun : m.run U (Op.use mw :: ops) = (m.Use mw).run U ops := rfl
      rw [hrun, h1, h2, h3, h4, h5]
      simp [Mux.Use, scopeRoutes, usesOf]
    | handle pattern handler methods =>
      obtain ⟨h1, h2, h3, h4, h5⟩ := ih (m.Handle U pattern handler methods)
      obtain ⟨g1, g2, g3, g4, g5⟩ := Handle_fields m pattern handler methods
      have hrun : m.run U (Op.handle pattern handler methods :: ops) =
          (m.Handle U pattern handler methods).run U ops := rfl
      rw [hrun, h1, h2, h3, h4, h5, g1, g2, g3, g4, g5]
      simp [scopeRoutes, usesOf]

theorem usesOf_map_use (mws : List (H → H)) : usesOf (mws.map Op.use) = mws := by
  induction mws with
  | nil => rfl
  | cons mw mws ih => simp [usesOf, ih]

theorem scopeRoutes_map_use (mws : List (H → H)) : ∀ start : List (H → H),
    scopeRoutes U start (mws.map Op.use) = [] := by
  induction mws with
  | nil => intro start; rfl
  | cons mw mws ih => intro start; simp [scopeRoutes, ih]

theorem usesOf_handles (regs : List (Str × H × List Str)) :
    usesOf (regs.map fun reg => Op.handle reg.1 reg.2.1 reg.2.2) = [] := by
  induction regs with
  | nil => rfl
  | cons reg regs ih => simp [usesOf, ih]

theorem mem_scopeRoutes_handles (mws : List (H → H)) (regs : List (Str × H × List Str))
    (r : route H)
    (hr : r ∈ scopeRoutes U mws (regs.map fun reg => Op.handle reg.1 reg.2.1 reg.2.2)) :
    ∃ reg ∈ regs, r.handler = mws.foldr (fun mw h => mw h) reg.2.1 := by
  induction regs with
  | nil => simp [scopeRoutes] at hr
  | cons reg regs ih =>
    simp only [List.map_cons, scopeRoutes, List.mem_append, List.mem_map] at hr
    rcases hr with ⟨x, _, rfl⟩ | hr
    · exact ⟨reg, by simp, rfl⟩
    · obtain ⟨reg', hreg', h⟩ := ih hr
      exact ⟨reg', by simp [hreg'], h⟩

end Middleware

/-! ## What the loop of `ServeHTTP` returns -/

section Shape

variable {H : Type} {U : Char → Char} (E : Regexp) (method : Str) (ctx : Ctx) (url : List Str)

theorem serveLoop_shape (routes : List (route H)) : ∀ allowed : List Str,
    (∃ p, ∀ m : Mux H, serveLoop E m method ctx url routes allowed = .panic p) ∨
    (∃ h c, ∀ m : Mux H, serveLoop E m method ctx url routes allowed = .ok (.Match h c)) ∨
    (∃ L, ∀ m : Mux H, serveLoop E m method ctx url routes allowed =
      .ok (fallback m method ctx L)) := by
  induction routes with
  | nil => intro allowed; exact .inr (.inr ⟨allowed, fun m => rfl⟩)
  | cons q routes ih =>
    intro allowed
    cases hq : q.match E ctx url with
    | panic p => exact .inl ⟨p, fun m => by rw [serveLoop, hq]⟩
    | ok res =>
      obtain ⟨c, b⟩ := res
      cases b with
      | false =>
        rcases ih allowed with ⟨p, hp⟩ | ⟨h, c', hh⟩ | ⟨L, hL⟩
        · exact .inl ⟨p, fun m => by rw [serveLoop_miss E m method ctx url q routes allowed c hq, hp]⟩
        · exact .inr (.inl ⟨h, c', fun m => by
            rw [serveLoop_miss E m method ctx url q routes allowed c hq, hh]⟩)
        · exact .inr (.inr ⟨L, fun m => by
            rw [serveLoop_miss E m method ctx url q routes allowed c hq, hL]⟩)
      | true =>
        by_cases hm : method = q.method
        · exact .inr (.inl ⟨q.handler, c, fun m => by rw [serveLoop, hq]; simp [hm]⟩)
        · by_cases hc : contains allowed q.method = true
          · have hstep : ∀ m : Mux H, serveLoop E m method ctx url (q :: routes) allowed =
                serveLoop E m method ctx url routes allowed := by
              intro m; rw [serveLoop, hq]; simp [hm, hc]
            rcases ih allowed with ⟨p, hp⟩ | ⟨h, c', hh⟩ | ⟨L, hL⟩
            · exact .inl ⟨p, fun m => by rw [hstep, hp]⟩
            · exact .inr (.inl ⟨h, c', fun m => by rw [hstep, hh]⟩)
            · exact .inr (.inr ⟨L, fun m => by rw [hstep, hL]⟩)
          · have hstep : ∀ m : Mux H, serveLoop E m method ctx url (q :: routes) allowed =
                serveLoop E m method ctx url routes (allowed ++ [q.method]) := by
              intro m; rw [serveLoop, hq]; simp [hm, hc]
            rcases ih (allowed ++ [q.method]) with ⟨p, hp⟩ | ⟨h, c', hh⟩ | ⟨L, hL⟩
            · exact .inl ⟨p, fun m => by rw [hstep, hp]⟩
            · exact .inr (.inl ⟨h, c', fun m => by rw [hstep, hh]⟩)
            · exact .inr (.inr ⟨L, fun m => by rw [hstep, hL]⟩)

theorem serveLoop_ok_cases (m : Mux H) (routes : List (route H)) :
    ∀ (allowed : List Str) (o : Outcome H),
    serveLoop E m method ctx url routes allowed = .ok o →
    (∃ r ∈ routes, ∃ c, r.match E ctx url = .ok (c, true) ∧ r.method = method ∧
      o = .Match r.handler c) ∨
    ((∀ q ∈ routes, ∃ c b, q.match E ctx url = .ok (c, b) ∧ (b = true → q.method ≠ method)) ∧
      o = fallback m method ctx
        (accumulate allowed ((routes.filter fun q => pathMatches E q ctx url).map (·.method)))) := by
  induction routes with
  | nil =>
    intro allowed o h
    simp only [serveLoop, Result.ok.injEq] at h
    exact .inr ⟨by simp, by simp [accumulate, h]⟩
  | cons q routes ih =>
    intro allowed o h
    cases hq : q.match E ctx url with
    | panic p => rw [serveLoop, hq] at h; cases h
    | ok res =>
      obtain ⟨c, b⟩ := res
      have lift : ∀ allowed', serveLoop E m method ctx url routes allowed' = .ok o →
          (b = true → q.method ≠ method) →
          accumulate allowed ((List.filter (fun q => pathMatches E q ctx url) (q :: routes)).map
            (·.method)) =
            accumulate allowed' ((List.filter (fun q => pathMatches E q ctx url) routes).map
              (·.method)) →
          (∃ r ∈ q :: routes, ∃ c, r.match E ctx url = .ok (c, true) ∧ r.method = method ∧
            o = .Match r.handler c) ∨
          ((∀ q' ∈ q :: routes, ∃ c b, q'.match E ctx url = .ok (c, b) ∧
              (b = true → q'.method ≠ method)) ∧
            o = fallback m method ctx (accumulate allowed
              ((List.filter (fun q => pathMatches E q ctx url) (q :: routes)).map (·.method)))) := by
        intro allowed' h' hb hacc
        rcases ih allowed' o h' with ⟨r, hr, c', h1, h2, h3⟩ | ⟨hall, ho⟩
        · exact .inl ⟨r, by simp [hr], c', h1, h2, h3⟩
        · refine .inr ⟨?_, by rw [hacc]; exact ho⟩
          intro q' hq'
          rcases List.mem_cons.1 hq' with rfl | hq'
          · exact ⟨c, b, hq, hb⟩
          · exact hall q' hq'
      cases b with
      | false =>
        rw [serveLoop_miss E m method ctx url q routes allowed c hq] at h
        exact lift allowed h (fun hb => by cases hb) (by simp [pathMatches, hq])
      | true =>
        by_cases hm : method = q.method
        · rw [serveLoop, hq] at h
          simp only [if_true, hm, Result.ok.injEq] at h
          exact .inl ⟨q, by simp, c, hq, hm.symm, h.symm⟩
        · have hne : q.method ≠ method := fun e => hm e.symm
          by_cases hc : contains allowed q.method = true
          · have hstep : serveLoop E m method ctx url (q :: routes) allowed =
                serveLoop E m method ctx url routes allowed := by
              rw [serveLoop, hq]; simp [hm, hc]
            rw [hstep] at h
            exact lift allowed h (fun _ => hne) (by simp [pathMatches, hq, accumulate, hc])
          · have hstep : serveLoop E m method ctx url (q :: routes) allowed =
                serveLoop E m method ctx url routes (allowed ++ [q.method]) := by
              rw [serveLoop, hq]; simp [hm, hc]
            rw [hstep] at h
            exact lift _ h (fun _ => hne) (by simp [pathMatches, hq, accumulate, hc])

theorem fallback_ne_Match (m : Mux H) (L : List Str) (h : H) (c : Ctx) :
    fallback m method ctx L ≠ .Match h c := by
  unfold fallback
  split
  · simp only
    split <;> exact fun e => by cases e
  · exact fun e => by cases e

theorem fallback_cases (m : Mux H) (L : List Str) :
    fallback m method ctx L = .NotFound (m.wrap m.NotFound) ctx ∨
      (∃ a, fallback m method ctx L = .MethodNotAllowed a (m.wrap m.MethodNotAllowed) ctx) ∨
      ∃ a, fallback m method ctx L = .Options a (m.wrap m.Options) ctx := by
  unfold fallback
  split
  · simp only
    split
    · exact .inr (.inr ⟨_, rfl⟩)
    · exact .inr (.inl ⟨_, rfl⟩)
  · exact .inl rfl

end Shape

/-! ## Middleware order and scope (C11 to C13) -/

section Chain

variable {H : Type} {U : Char → Char}

theorem mem_scopeRoutes_handles_iff (mws : List (H → H)) (regs : List (Str × H × List Str))
    (r : route H) :
    r ∈ scopeRoutes U mws (regs.map fun reg => Op.handle reg.1 reg.2.1 reg.2.2) ↔
      ∃ reg ∈ regs, ∃ x ∈ normalizedMethods reg.2.2,
        r = ⟨ToUpper U x, Split reg.1 '/', HasSuffix reg.1 "/...".toList,
          mws.foldr (fun mw h => mw h) reg.2.1⟩ := by
  induction regs with
  | nil =>
    simp only [List.map_nil, scopeRoutes, List.not_mem_nil, false_iff]
    rintro ⟨reg, hreg, _⟩
    cases hreg
  | cons reg regs ih =>
    simp only [List.map_cons, scopeRoutes, List.mem_append, List.mem_map, ih]
    constructor
    · rintro (⟨x, hx, rfl⟩ | ⟨reg', hreg', h⟩)
      · exact ⟨reg, by simp, x, hx, rfl⟩
      · exact ⟨reg', by simp [hreg'], h⟩
    · rintro ⟨reg', hreg', x, hx, rfl⟩
      rcases List.mem_cons.1 hreg' with rfl | h
      · exact .inl ⟨x, hx, rfl⟩
      · exact .inr ⟨reg', h, x, hx, rfl⟩

theorem configured_fields (nf mna opt : H) (mws : List (H → H))
    (regs : List (Str × H × List Str)) :
    (configured U nf mna opt mws regs).routes =
        scopeRoutes U mws (regs.map fun reg => Op.handle reg.1 reg.2.1 reg.2.2) ∧
      (configured U nf mna opt mws regs).middlewares = mws ∧
      (configured U nf mna opt mws regs).NotFound = nf ∧
      (configured U nf mna opt mws regs).MethodNotAllowed = mna ∧
      (configured U nf mna opt mws regs).Options = opt := by
  obtain ⟨a1, a2, a3, a4, a5⟩ := @run_fields H U (mws.map Op.use) (New nf mna opt)
  have hmw1 : ((New nf mna opt).run U (mws.map Op.use)).middlewares = mws := by
    rw [a2, usesOf_map_use]; rfl
  have hr1 : ((New nf mna opt).run U (mws.map Op.use)).routes = [] := by
    rw [a1, scopeRoutes_map_use]; rfl
  obtain ⟨b1, b2, b3, b4, b5⟩ := @run_fields H U
    (regs.map fun reg => Op.handle reg.1 reg.2.1 reg.2.2)
    ((New nf mna opt).run U (mws.map Op.use))
  rw [hr1, hmw1, List.nil_append] at b1
  rw [hmw1, usesOf_handles, List.append_nil] at b2
  rw [a3] at b3
  rw [a4] at b4
  rw [a5] at b5
  exact ⟨b1, b2, b3, b4, b5⟩

/-- C11: let the middlewares `m1, ..., mn` be registered with `Use` in this order on a
new router and the routes afterwards.  Then `wrap` turns a handler `h` into
`m1 (m2 (... (mn h)))`, the right fold with the first-registered outermost, and every
route of the table holds this fold of the base handler it was registered with.
`ServeHTTP` invokes that fold for every kind of outcome: when the route of a
registration with base handler `h` is the first to match path and method, the outcome
is Match with the handler `m1 (... (mn h))`; when no route matches the path it is
NotFound with the fold of the NotFound handler; when routes match the path but none has
the method it is MethodNotAllowed, or Options for an OPTIONS request, with the fold of
that handler.  No outcome has another handler. -/
theorem wrap_right_fold (nf mna opt : H) (mws : List (H → H))
    (regs : List (Str × H × List Str)) :
    (∀ h, ((New nf mna opt).run U (mws.map Op.use)).wrap h =
      mws.foldr (fun mw h => mw h) h) ∧
    (∀ h, (configured U nf mna opt mws regs).wrap h = mws.foldr (fun mw h => mw h) h) ∧
    (∀ r, r ∈ (configured U nf mna opt mws regs).routes ↔
      ∃ reg ∈ regs, ∃ x ∈ normalizedMethods reg.2.2,
        r = ⟨ToUpper U x, Split reg.1 '/', HasSuffix reg.1 "/...".toList,
          mws.foldr (fun mw h => mw h) reg.2.1⟩) ∧
    ∀ (E : Regexp) (method path : Str) (ctx : Ctx),
      (∀ (pre post : List (route H)) (reg : Str × H × List Str) (x : Str) (c : Ctx),
        (configured U nf mna opt mws regs).routes =
          pre ++ ⟨ToUpper U x, Split reg.1 '/', HasSuffix reg.1 "/...".toList,
            mws.foldr (fun mw h => mw h) reg.2.1⟩ :: post →
        (∀ q ∈ pre, ∃ c' b, q.match E ctx (Split path '/') = .ok (c', b) ∧
          (b = true → q.method ≠ method)) →
        (⟨ToUpper U x, Split reg.1 '/', HasSuffix reg.1 "/...".toList,
          mws.foldr (fun mw h => mw h) reg.2.1⟩ : route H).match E ctx (Split path '/') =
          .ok (c, true) →
        ToUpper U x = method →
        (configured U nf mna opt mws regs).ServeHTTP E method path ctx =
          .ok (.Match (mws.foldr (fun mw h => mw h) reg.2.1) c)) ∧
      ((∀ r ∈ (configured U nf mna opt mws regs).routes, ∃ c,
          r.match E ctx (Split path '/') = .ok (c, false)) →
        (configured U nf mna opt mws regs).ServeHTTP E method path ctx =
          .ok (.NotFound (mws.foldr (fun mw h => mw h) nf) ctx)) ∧
      ((∀ r ∈ (configured U nf mna opt mws regs).routes, ∃ c b,
          r.match E ctx (Split path '/') = .ok (c, b)) →
        (∃ r ∈ (configured U nf mna opt mws regs).routes,
          pathMatches E r ctx (Split path '/') = true) →
        (∀ r ∈ (configured U nf mna opt mws regs).routes,
          pathMatches E r ctx (Split path '/') = true → r.method ≠ method) →
        (method ≠ MethodOptions →
          (configured U nf mna opt mws regs).ServeHTTP E method path ctx =
            .ok (.MethodNotAllowed
              (Join (firstSeen (((configured U nf mna opt mws regs).routes.filter fun q =>
                pathMatches E q ctx (Split path '/')).map (·.method)) ++ [MethodOptions])
                ", ".toList)
              (mws.foldr (fun mw h => mw h) mna) ctx)) ∧
        (method = MethodOptions →
          (configured U nf mna opt mws regs).ServeHTTP E method path ctx =
            .ok (.Options
              (Join (firstSeen (((configured U nf mna opt mws regs).routes.filter fun q =>
                pathMatches E q ctx (Split path '/')).map (·.method)) ++ [MethodOptions])
                ", ".toList)
              (mws.foldr (fun mw h => mw h) opt) ctx))) ∧
      ∀ o, (configured U nf mna opt mws regs).ServeHTTP E method path ctx = .ok o →
        match o with
        | .Match h _ => ∃ reg ∈ regs, h = mws.foldr (fun mw h => mw h) reg.2.1
        | .NotFound h _ => h = mws.foldr (fun mw h => mw h) nf
        | .MethodNotAllowed _ h _ => h = mws.foldr (fun mw h => mw h) mna
        | .Options _ h _ => h = mws.foldr (fun mw h => mw h) opt := by
  obtain ⟨b1, b2, b3, b4, b5⟩ := @configured_fields H U nf mna opt mws regs
  have hwrap : ∀ h, (configured U nf mna opt mws regs).wrap h =
      mws.foldr (fun mw h => mw h) h := by
    intro h
    rw [wrap_eq_foldr, b2]
  have hfirst : ∀ h, ((New nf mna opt).run U (mws.map Op.use)).wrap h =
      mws.foldr (fun mw h => mw h) h := by
    intro h
    rw [wrap_eq_foldr, (@run_fields H U (mws.map Op.use) (New nf mna opt)).2.1,
      usesOf_map_use]
    rfl
  refine ⟨hfirst, hwrap, ?_, ?_⟩
  · intro r
    rw [b1]
    exact mem_scopeRoutes_handles_iff mws regs r
  · intro E method path ctx
    refine ⟨?_, ?_, ?_, ?_⟩
    · intro pre post reg x c hroutes hpre hmatch hx
      rw [Mux.ServeHTTP, hroutes, serveLoop_skip E _ method ctx _ pre _ [] hpre]
      exact serveLoop_hit E _ method ctx _ _ post _ c hmatch hx
    · intro hall
      have hall' : ∀ q ∈ (configured U nf mna opt mws regs).routes, ∃ c b,
          q.match E ctx (Split path '/') = .ok (c, b) ∧ (b = true → q.method ≠ method) := by
        intro q hq
        obtain ⟨c, hc⟩ := hall q hq
        exact ⟨c, false, hc, fun h => by cases h⟩
      have hnil : ((configured U nf mna opt mws regs).routes.filter fun q =>
          pathMatches E q ctx (Split path '/')) = [] := by
        rw [List.filter_eq_nil_iff]
        intro q hq
        obtain ⟨c, hc⟩ := hall q hq
        simp [pathMatches, hc]
      rw [serveLoop_no_hit E _ method path ctx hall', hnil]
      simp only [List.map_nil, firstSeen, fallback, List.length_nil, gt_iff_lt, Nat.lt_irrefl,
        if_false, hwrap, b3]
    · intro hnp hsome hnone
      have hfb := serveLoop_no_hit E _ method path ctx
        (no_hit_of_normal E _ method path ctx hnp hnone)
      have hpos := allowed_pos E _ path ctx hsome
      constructor
      · intro hopt
        rw [hfb]
        simp only [fallback, hpos, if_true, hopt, if_false, hwrap, b4]
      · intro hopt
        rw [hfb]
        simp only [fallback, hpos, if_true, hopt, hwrap, b5]
    · intro o hs
      rcases serveLoop_ok_cases E method ctx (Split path '/') _ _ [] o hs with
        ⟨r, hr, c, _, _, rfl⟩ | ⟨_, rfl⟩
      · rw [b1] at hr
        exact mem_scopeRoutes_handles mws regs r hr
      · rcases fallback_cases method ctx _ _ with h | ⟨a, h⟩ | ⟨a, h⟩
        · rw [h]
          simp only [hwrap, b3]
        · rw [h]
          simp only [hwrap, b4]
        · rw [h]
          simp only [hwrap, b5]

/-- With the middlewares 8 and 9 registered in this order and `GET /a` registered with
the base handler `[7]`, the handler invoked for `GET /a` is `8 (9 [7])`, and the one
invoked for `GET /b`, which no route matches, is `8 (9 [0])`. -/
theorem wrap_right_fold_witness :
    (configured sampleUpper [0] [1] [2] [fun h => 8 :: h, fun h => 9 :: h]
        [("/a".toList, [7], [MethodGet])]).ServeHTTP miniRE MethodGet "/a".toList [] =
        .ok (.Match [8, 9, 7] []) ∧
      (configured sampleUpper [0] [1] [2] [fun h => 8 :: h, fun h => 9 :: h]
        [("/a".toList, [7], [MethodGet])]).ServeHTTP miniRE MethodGet "/b".toList [] =
        .ok (.NotFound [8, 9, 0] []) :=
  ⟨((@wrap_right_fold (List Nat) sampleUpper [0] [1] [2] [fun h => 8 :: h, fun h => 9 :: h]
      [("/a".toList, [7], [MethodGet])]).2.2.2 miniRE MethodGet "/a".toList []).1
      [] [⟨MethodHead, Split "/a".toList '/', false, [8, 9, 7]⟩]
      ("/a".toList, [7], [MethodGet]) MethodGet [] (by decide)
      (fun q hq => (by cases hq)) (by decide) (by decide),
    ((@wrap_right_fold (List Nat) sampleUpper [0] [1] [2] [fun h => 8 :: h, fun h => 9 :: h]
      [("/a".toList, [7], [MethodGet])]).2.2.2 miniRE MethodGet "/b".toList []).2.1 (by
        intro r hr
        have : r.match miniRE [] (Split "/b".toList '/') = .ok ([], false) := by
          revert r; decide
        exact ⟨_, this⟩)⟩

/-- C12, refuted as stated: `GET /a` is registered with the base handler `[7]`, then the
middleware 9 is added.  The handler invoked for `GET /a` is still `[7]`, not `9 [7]`,
whereas the NotFound handler invoked for `GET /b` is `9 [0]`. -/
theorem wrap_late_bound_counterexample :
    useAfterHandle.ServeHTTP miniRE MethodGet "/a".toList [] = .ok (.Match [7] []) ∧
      useAfterHandle.wrap [7] = [9, 7] ∧
      useAfterHandle.ServeHTTP miniRE MethodGet "/b".toList [] = .ok (.NotFound [9, 0] []) := by
  decide

/-- C12, amended: a route's handler is wrapped when `Handle` registers it, through the
middleware chain as it stands at that moment; a middleware added with `Use` afterwards
leaves the table as it is, so the handler invoked for a matched route does not change.
The NotFound, MethodNotAllowed and Options handlers are wrapped when they are invoked,
through the chain as it stands then, the new middleware innermost. -/
theorem wrap_at_registration (m : Mux H) (mw : H → H) :
    (∀ pattern handler methods, ∀ r ∈ (m.Handle U pattern handler methods).routes,
      r ∈ m.routes ∨ r.handler = m.wrap handler) ∧
    (m.Use mw).routes = m.routes ∧
    (∀ h, (m.Use mw).wrap h = m.wrap (mw h)) ∧
    ∀ (E : Regexp) (method path : Str) (ctx : Ctx),
      (∀ h c, m.ServeHTTP E method path ctx = .ok (.Match h c) →
        (m.Use mw).ServeHTTP E method path ctx = .ok (.Match h c)) ∧
      (∀ h c, m.ServeHTTP E method path ctx = .ok (.NotFound h c) →
        (m.Use mw).ServeHTTP E method path ctx = .ok (.NotFound (m.wrap (mw m.NotFound)) c)) ∧
      (∀ a h c, m.ServeHTTP E method path ctx = .ok (.MethodNotAllowed a h c) →
        (m.Use mw).ServeHTTP E method path ctx =
          .ok (.MethodNotAllowed a (m.wrap (mw m.MethodNotAllowed)) c)) ∧
      (∀ a h c, m.ServeHTTP E method path ctx = .ok (.Options a h c) →
        (m.Use mw).ServeHTTP E method path ctx =
          .ok (.Options a (m.wrap (mw m.Options)) c)) := by
  have hwrap : ∀ h, (m.Use mw).wrap h = m.wrap (mw h) := by
    intro h
    simp [wrap_eq_foldr, Mux.Use]
  refine ⟨?_, rfl, hwrap, ?_⟩
  · intro pattern handler methods r hr
    rw [Handle_eq] at hr
    rcases List.mem_append.1 hr with hr | hr
    · exact .inl hr
    · obtain ⟨x, _, rfl⟩ := List.mem_map.1 hr
      exact .inr rfl
  · intro E method path ctx
    have hserve : ∀ m' : Mux H, m'.routes = m.routes →
        m'.ServeHTTP E method path ctx =
          serveLoop E m' method ctx (Split path '/') m.routes [] := by
      intro m' h'
      rw [Mux.ServeHTTP, h']
    have hU := hserve (m.Use mw) rfl
    have hM := hserve m rfl
    rcases serveLoop_shape (H := H) E method ctx (Split path '/') m.routes [] with
      ⟨p, hp⟩ | ⟨h', c', hh⟩ | ⟨L, hL⟩
    · rw [hM, hp]
      exact ⟨fun _ _ e => (by cases e), fun _ _ e => (by cases e), fun _ _ _ e => (by cases e),
        fun _ _ _ e => (by cases e)⟩
    · rw [hM, hU, hh m, hh (m.Use mw)]
      exact ⟨fun _ _ e => e, fun _ _ e => (by cases e), fun _ _ _ e => (by cases e),
        fun _ _ _ e => (by cases e)⟩
    · rw [hM, hU, hL m, hL (m.Use mw)]
      have hf : ∀ m' : Mux H, fallback m' method ctx L =
          if L.length > 0 then
            if method = MethodOptions then
              .Options (Join (L ++ [MethodOptions]) ", ".toList) (m'.wrap m'.Options) ctx
            else .MethodNotAllowed (Join (L ++ [MethodOptions]) ", ".toList)
              (m'.wrap m'.MethodNotAllowed) ctx
          else .NotFound (m'.wrap m'.NotFound) ctx := fun m' => rfl
      rw [hf m, hf (m.Use mw)]
      have hNF : (m.Use mw).wrap (m.Use mw).NotFound = m.wrap (mw m.NotFound) := hwrap _
      have hMNA : (m.Use mw).wrap (m.Use mw).MethodNotAllowed =
          m.wrap (mw m.MethodNotAllowed) := hwrap _
      have hOpt : (m.Use mw).wrap (m.Use mw).Options = m.wrap (mw m.Options) := hwrap _
      rw [hNF, hMNA, hOpt]
      by_cases hlen : L.length > 0
      · by_cases hopt : method = MethodOptions
        · simp only [hlen, hopt, if_true]
          refine ⟨fun _ _ e => (by cases e), fun _ _ e => (by cases e),
            fun _ _ _ e => (by cases e), ?_⟩
          intro a h c e
          simp only [Result.ok.injEq, Outcome.Options.injEq] at e
          rw [← e.1, ← e.2.2]
        · simp only [hlen, hopt, if_true, if_false]
          refine ⟨fun _ _ e => (by cases e), fun _ _ e => (by cases e), ?_,
            fun _ _ _ e => (by cases e)⟩
          intro a h c e
          simp only [Result.ok.injEq, Outcome.MethodNotAllowed.injEq] at e
          rw [← e.1, ← e.2.2]
      · simp only [hlen, if_false]
        refine ⟨fun _ _ e => (by cases e), ?_, fun _ _ _ e => (by cases e),
          fun _ _ _ e => (by cases e)⟩
        intro h c e
        simp only [Result.ok.injEq, Outcome.NotFound.injEq] at e
        rw [← e.2]

/-- Adding the middleware 9 after `GET /a` was registered with `[7]`: the handler
invoked for `GET /a` stays `[7]`. -/
theorem wrap_at_registration_witness :
    useAfterHandle.ServeHTTP miniRE MethodGet "/a".toList [] = .ok (.Match [7] []) :=
  ((@wrap_at_registration (List Nat) sampleUpper
    ((New [0] [1] [2]).Handle sampleUpper "/a".toList [7] [MethodGet])
    (fun h => 9 :: h)).2.2.2 miniRE MethodGet "/a".toList []).1 [7] [] (by decide)

/-- C13: after `Group(fn)`, for a body made of `Use` and `Handle` calls, the parent's
middleware list and fallback handlers are what they were; the table is the table before
followed by the routes registered in the body, each wrapped with the parent's
middlewares at group entry followed by the middlewares the body added before it; and a
route registered after the group is wrapped with the parent's middlewares only. -/
theorem Group_scope (m : Mux H) (ops : List (Op H)) :
    (m.Group fun mm => mm.run U ops).middlewares = m.middlewares ∧
    (m.Group fun mm => mm.run U ops).NotFound = m.NotFound ∧
    (m.Group fun mm => mm.run U ops).MethodNotAllowed = m.MethodNotAllowed ∧
    (m.Group fun mm => mm.run U ops).Options = m.Options ∧
    (m.Group fun mm => mm.run U ops).routes = m.routes ++ scopeRoutes U m.middlewares ops ∧
    (∀ h, (m.Group fun mm => mm.run U ops).wrap h = m.middlewares.foldr (fun mw h => mw h) h) ∧
    ∀ pattern handler methods,
      ((m.Group fun mm => mm.run U ops).Handle U pattern handler methods).routes =
        (m.routes ++ scopeRoutes U m.middlewares ops) ++
          (normalizedMethods methods).map (fun method =>
            (⟨ToUpper U method, Split pattern '/', HasSuffix pattern "/...".toList,
              m.middlewares.foldr (fun mw h => mw h) handler⟩ : route H)) := by
  have hroutes : (m.Group fun mm => mm.run U ops).routes =
      m.routes ++ scopeRoutes U m.middlewares ops := (run_fields ops m).1
  refine ⟨rfl, rfl, rfl, rfl, hroutes, fun h => wrap_eq_foldr _ h, ?_⟩
  intro pattern handler methods
  rw [(Handle_fields _ pattern handler methods).1, hroutes]
  rfl

/-- The router with middleware 8 and `GET /a`, and a group body that adds middleware 9
and registers `GET /b`: the table after the group holds the routes for `/a` with the
handler `8 [7]` and the routes for `/b` with the handler `8 (9 [7])`, and the
middleware list is still the one with 8 alone. -/
theorem Group_scope_witness :
    ((((New [0] [1] [2]).Use (fun h => 8 :: h)).Handle sampleUpper "/a".toList [7] [MethodGet]).Group
      (fun mm => mm.run sampleUpper [.use (fun h => 9 :: h), .handle "/b".toList [7] [MethodGet]])).routes =
      [⟨MethodGet, Split "/a".toList '/', false, [8, 7]⟩,
        ⟨MethodHead, Split "/a".toList '/', false, [8, 7]⟩,
        ⟨MethodGet, Split "/b".toList '/', false, [8, 9, 7]⟩,
        ⟨MethodHead, Split "/b".toList '/', false, [8, 9, 7]⟩] :=
  (Group_scope (((New [0] [1] [2]).Use (fun h => 8 :: h)).Handle sampleUpper "/a".toList [7] [MethodGet])
    [.use (fun h => 9 :: h), .handle "/b".toList [7] [MethodGet]]).2.2.2.2.1

end Chain

/-! ## Parameters, the Allow value, registration (C14 to C16) -/

section Contracts

variable {H : Type} {U : Char → Char}

theorem Value_eq_none_iff (ctx : Ctx) (name : Str) :
    Value ctx name = none ↔ ∀ kv ∈ ctx, kv.1 ≠ name := by
  induction ctx with
  | nil => simp [Value]
  | cons kv ctx ih =>
    obtain ⟨k, v⟩ := kv
    by_cases h : k = name
    · simp [Value, h]
    · simp [Value, h, ih]

theorem Value_append (front rest : Ctx) (name v : Str) (h : ∀ kv ∈ front, kv.1 ≠ name) :
    Value (front ++ (name, v) :: rest) name = some v := by
  induction front with
  | nil => simp [Value]
  | cons kv front ih =>
    obtain ⟨k, w⟩ := kv
    have hk : ¬ k = name := h (k, w) (by simp)
    simp only [List.cons_append, Value, hk, if_false]
    exact ih fun kv hkv => h kv (by simp [hkv])

theorem occurrences_append (x : Str) (xs ys : List Str) :
    occurrences x (xs ++ ys) = occurrences x xs + occurrences x ys := by
  induction xs with
  | nil => simp [occurrences]
  | cons y xs ih =>
    rw [List.cons_append, occurrences, occurrences, ih]
    omega

theorem occurrences_eq_zero (x : Str) (xs : List Str) (h : x ∉ xs) : occurrences x xs = 0 := by
  induction xs with
  | nil => rfl
  | cons y xs ih =>
    have hy : ¬ y = x := fun e => h (by simp [e])
    have hxs : x ∉ xs := fun e => h (by simp [e])
    simp [occurrences, hy, ih hxs]

theorem occurrences_nodup (x : Str) (xs : List Str) (hn : xs.Nodup) (h : x ∈ xs) :
    occurrences x xs = 1 := by
  induction xs with
  | nil => cases h
  | cons y xs ih =>
    rw [List.nodup_cons] at hn
    by_cases hy : y = x
    · subst hy
      simp [occurrences, occurrences_eq_zero y xs hn.1]
    · have hxs : x ∈ xs := by
        rcases List.mem_cons.1 h with e | e
        · exact absurd e.symm hy
        · exact e
      simp [occurrences, hy, ih hn.2 hxs]

/-- C14: `Param` panics exactly when no binding of the context has the name as its
key; when there are bindings for the name it returns the value of the most recent one,
also when that value is the empty string, so that a name bound to the empty string and
an unbound name are told apart. -/
theorem Param_panics_iff (ctx : Ctx) (name : Str) :
    ((∃ p, Param ctx name = .panic p) ↔ ∀ kv ∈ ctx, kv.1 ≠ name) ∧
    ((∀ kv ∈ ctx, kv.1 ≠ name) → Param ctx name = .panic .nilAssertion) ∧
    (∀ (front rest : Ctx) (v : Str), (∀ kv ∈ front, kv.1 ≠ name) →
      Param (front ++ (name, v) :: rest) name = .ok v) ∧
    Param (WithValue ctx name []) name = .ok [] ∧
    ∀ p, Param (WithValue ctx name []) name ≠ .panic p := by
  have hnone : (∀ kv ∈ ctx, kv.1 ≠ name) → Param ctx name = .panic .nilAssertion := by
    intro h
    rw [Param, (Value_eq_none_iff ctx name).2 h]
  have hempty : Param (WithValue ctx name []) name = .ok [] := by
    simp [Param, WithValue, Value]
  refine ⟨⟨?_, fun h => ⟨_, hnone h⟩⟩, hnone, ?_, hempty, ?_⟩
  · rintro ⟨p, hp⟩
    rw [← Value_eq_none_iff]
    cases hv : Value ctx name with
    | none => rfl
    | some v => rw [Param, hv] at hp; cases hp
  · intro front rest v h
    rw [Param, Value_append front rest name v h]
  · intro p hp
    rw [hempty] at hp
    cases hp

/-- The pattern `/users/:id` matches `/users/` and binds the empty string; in the
context of the match the lookup of the bound key returns the empty string, and the
lookup of a name that is not bound panics. -/
theorem Param_panics_iff_witness :
    (⟨MethodGet, Split "/users/:id".toList '/', false, 7⟩ : route Nat).match miniRE []
        (Split "/users/".toList '/') = .ok ([(":id".toList, [])], true) ∧
      Param ([] ++ (":id".toList, []) :: []) ":id".toList = .ok [] ∧
      Param [(":id".toList, [])] "other".toList = .panic .nilAssertion :=
  ⟨by decide,
    (Param_panics_iff [] ":id".toList).2.2.1 [] [] [] (fun _ h => (by cases h)),
    (Param_panics_iff [(":id".toList, [])] "other".toList).2.1 (by decide)⟩

/-- C15, refuted as stated: with `OPTIONS /a` registered, a `GET /a` request is answered
with Method Not Allowed and `Allow: OPTIONS, OPTIONS`: the method recorded from the
route is followed by the OPTIONS that is always appended. -/
theorem Allow_dedup_counterexample :
    explicitOptions.ServeHTTP miniRE MethodGet "/a".toList [] =
        .ok (.MethodNotAllowed "OPTIONS, OPTIONS".toList 1 []) ∧
      "OPTIONS, OPTIONS".toList = Join [MethodOptions, MethodOptions] ", ".toList ∧
      occurrences MethodOptions [MethodOptions, MethodOptions] = 2 := by
  decide

/-- C15, amended: whenever `ServeHTTP` sets an Allow value, it is the join of a list
`L ++ [OPTIONS]` where `L`, the methods recorded from the path-matching routes, is not
empty and has no method twice.  So every method other than OPTIONS occurs at most once,
and OPTIONS occurs twice exactly when it was recorded from a route, which does not
happen when the request's own method is OPTIONS: the automatic Options outcome carries
a list without repetition. -/
theorem Allow_dedup (E : Regexp) (m : Mux H) (method path : Str) (ctx : Ctx)
    (allow : Str) (h : H) (c : Ctx)
    (hs : m.ServeHTTP E method path ctx = .ok (.MethodNotAllowed allow h c) ∨
      m.ServeHTTP E method path ctx = .ok (.Options allow h c)) :
    ∃ L : List Str, allow = Join (L ++ [MethodOptions]) ", ".toList ∧ L ≠ [] ∧ L.Nodup ∧
      (∀ x, x ∈ L ↔ ∃ r ∈ m.routes, pathMatches E r ctx (Split path '/') = true ∧
        r.method = x) ∧
      (∀ x, x ≠ MethodOptions → occurrences x (L ++ [MethodOptions]) ≤ 1) ∧
      (occurrences MethodOptions (L ++ [MethodOptions]) = if MethodOptions ∈ L then 2 else 1) ∧
      (method = MethodOptions → (L ++ [MethodOptions]).Nodup) := by
  have key : ∀ o : Outcome H, m.ServeHTTP E method path ctx = .ok o →
      (o = .MethodNotAllowed allow h c ∨ o = .Options allow h c) →
      (∀ q ∈ m.routes, ∃ c b, q.match E ctx (Split path '/') = .ok (c, b) ∧
        (b = true → q.method ≠ method)) ∧
      o = fallback m method ctx (firstSeen
        ((m.routes.filter fun q => pathMatches E q ctx (Split path '/')).map (·.method))) := by
    intro o ho hkind
    rcases serveLoop_ok_cases E method ctx (Split path '/') m m.routes [] o ho with
      ⟨r, _, c', _, _, rfl⟩ | ⟨hall, hfb⟩
    · rcases hkind with e | e <;> cases e
    · rw [accumulate_nil] at hfb
      exact ⟨hall, hfb⟩
  have hcommon : ∃ o : Outcome H, m.ServeHTTP E method path ctx = .ok o ∧
      (o = .MethodNotAllowed allow h c ∨ o = .Options allow h c) := by
    rcases hs with hs | hs
    · exact ⟨_, hs, .inl rfl⟩
    · exact ⟨_, hs, .inr rfl⟩
  obtain ⟨o, ho, hkind⟩ := hcommon
  obtain ⟨hall, hfb⟩ := key o ho hkind
  refine ⟨firstSeen ((m.routes.filter fun q => pathMatches E q ctx (Split path '/')).map
    (·.method)), ?_, ?_, nodup_firstSeen _, mem_allowed E m path ctx, ?_, ?_, ?_⟩
  · rw [hfb, fallback] at hkind
    split at hkind
    · simp only at hkind
      split at hkind
      · rcases hkind with e | e
        · cases e
        · simp only [Outcome.Options.injEq] at e
          exact e.1.symm
      · rcases hkind with e | e
        · simp only [Outcome.MethodNotAllowed.injEq] at e
          exact e.1.symm
        · cases e
    · rcases hkind with e | e <;> cases e
  · rw [hfb, fallback] at hkind
    split at hkind
    · rename_i hlen
      exact List.ne_nil_of_length_pos hlen
    · rcases hkind with e | e <;> cases e
  · intro x hx
    rw [occurrences_append]
    have h2 : occurrences x [MethodOptions] = 0 :=
      occurrences_eq_zero x _ (by simpa using hx)
    by_cases hmem : x ∈ firstSeen
        ((m.routes.filter fun q => pathMatches E q ctx (Split path '/')).map (·.method))
    · rw [occurrences_nodup x _ (nodup_firstSeen _) hmem, h2]
    · rw [occurrences_eq_zero x _ hmem, h2]
      omega
  · rw [occurrences_append]
    have h2 : occurrences MethodOptions [MethodOptions] = 1 := by simp [occurrences]
    split
    · rename_i hmem
      rw [occurrences_nodup _ _ (nodup_firstSeen _) hmem, h2]
    · rename_i hmem
      rw [occurrences_eq_zero _ _ hmem, h2]
  · intro hm
    have hnot : MethodOptions ∉ firstSeen
        ((m.routes.filter fun q => pathMatches E q ctx (Split path '/')).map (·.method)) := by
      intro hmem
      obtain ⟨r, hr, hp, hrm⟩ := (mem_allowed E m path ctx MethodOptions).1 hmem
      obtain ⟨c', b, hc', hb⟩ := hall r hr
      have hb' : b = true := by simpa [pathMatches, hc'] using hp
      exact hb hb' (hrm.trans hm.symm)
    rw [List.nodup_append]
    refine ⟨nodup_firstSeen _, by simp, ?_⟩
    intro x hx hx'
    simp only [List.mem_singleton] at hx'
    exact hnot (hx' ▸ hx)

/-- With `GET /a`, `HEAD /a` and `POST /a` registered, `PUT /a` gets
`Allow: GET, HEAD, POST, OPTIONS`, the join of a list without repetition followed by
OPTIONS. -/
theorem Allow_dedup_witness :
    ∃ L : List Str, "GET, HEAD, POST, OPTIONS".toList = Join (L ++ [MethodOptions]) ", ".toList ∧
      L ≠ [] ∧ L.Nodup ∧
      (∀ x, x ∈ L ↔ ∃ r ∈ getThenPost.routes,
        pathMatches miniRE r [] (Split "/a".toList '/') = true ∧ r.method = x) ∧
      (∀ x, x ≠ MethodOptions → occurrences x (L ++ [MethodOptions]) ≤ 1) ∧
      (occurrences MethodOptions (L ++ [MethodOptions]) = if MethodOptions ∈ L then 2 else 1) ∧
      (MethodPut = MethodOptions → (L ++ [MethodOptions]).Nodup) :=
  Allow_dedup miniRE getThenPost MethodPut "/a".toList [] "GET, HEAD, POST, OPTIONS".toList 1 []
    (.inl (by decide))

/-- C16: `Handle` only appends.  The table afterwards is the table before followed by
one route per method of the normalized method list, in the order of the list; each
stores the method as `strings.ToUpper` returns it, the pattern split on `/` with empty
segments kept, the wildcard flag telling whether the pattern ends in `/...`, and the
handler wrapped with the current middlewares.  The normalized list is all nine methods
for an empty list, the list followed by HEAD when it has GET and no HEAD, and the list
itself otherwise.  The other fields of the router are unchanged.  Whatever the case
tables say above ASCII, `post` is stored as `POST`, and a route registered as `post`
takes a `POST` request to a path its pattern matches when no earlier route does. -/
theorem Handle_appends (m : Mux H) (pattern : Str) (handler : H) (methods : List Str) :
    (m.Handle U pattern handler methods).routes =
        m.routes ++ (normalizedMethods methods).map (fun method =>
          (⟨ToUpper U method, Split pattern '/', HasSuffix pattern "/...".toList,
            m.wrap handler⟩ : route H)) ∧
    normalizedMethods methods =
      (if methods = [] then allMethods
        else if contains methods MethodGet = true ∧ contains methods MethodHead = false then
          methods ++ [MethodHead]
        else methods) ∧
    (HasSuffix pattern "/...".toList = true ↔ ∃ p, pattern = p ++ "/...".toList) ∧
    (m.Handle U pattern handler methods).middlewares = m.middlewares ∧
    (m.Handle U pattern handler methods).NotFound = m.NotFound ∧
    (m.Handle U pattern handler methods).MethodNotAllowed = m.MethodNotAllowed ∧
    (m.Handle U pattern handler methods).Options = m.Options ∧
    ToUpper U "post".toList = MethodPost ∧
    ∀ (E : Regexp) (path : Str) (ctx c : Ctx),
      (∀ q ∈ m.routes, ∃ c' b, q.match E ctx (Split path '/') = .ok (c', b) ∧
        (b = true → q.method ≠ MethodPost)) →
      (⟨MethodPost, Split pattern '/', HasSuffix pattern "/...".toList, m.wrap handler⟩ :
        route H).match E ctx (Split path '/') = .ok (c, true) →
      (m.Handle U pattern handler ["post".toList]).ServeHTTP E MethodPost path ctx =
        .ok (.Match (m.wrap handler) c) := by
  refine ⟨by rw [Handle_eq], ?_, ?_, (Handle_fields m pattern handler methods).2.1,
    (Handle_fields m pattern handler methods).2.2.1,
    (Handle_fields m pattern handler methods).2.2.2.1,
    (Handle_fields m pattern handler methods).2.2.2.2, rfl, ?_⟩
  rotate_left 2
  · intro E path ctx c hpre hmatch
    have hroutes : (m.Handle U pattern handler ["post".toList]).routes =
        m.routes ++ [⟨MethodPost, Split pattern '/', HasSuffix pattern "/...".toList,
          m.wrap handler⟩] := by
      rw [Handle_eq]
      rfl
    rw [Mux.ServeHTTP, hroutes, serveLoop_skip E _ MethodPost ctx _ m.routes _ [] hpre]
    exact serveLoop_hit E _ MethodPost ctx _ _ [] _ c hmatch rfl
  · cases methods with
    | nil => decide
    | cons x xs =>
      simp only [normalizedMethods, reduceCtorEq, if_false]
      by_cases hg : contains (x :: xs) MethodGet = true
      · by_cases hh : contains (x :: xs) MethodHead = true
        · simp [hg, hh]
        · simp only [Bool.not_eq_true] at hh
          simp [hg, hh]
      · simp only [Bool.not_eq_true] at hg
        simp [hg]
  · rw [HasSuffix, List.isSuffixOf_iff_suffix]
    constructor
    · rintro ⟨p, hp⟩
      exact ⟨p, hp.symm⟩
    · rintro ⟨p, hp⟩
      exact ⟨p, hp.symm⟩

/-- A route registered as `post` answers the request method `POST`; and with the long
s among the sample lines of the case tables, `poſt` is stored as `POST` too. -/
theorem Handle_appends_witness :
    lowerCasePost.routes = [⟨MethodPost, Split "/a".toList '/', false, 7⟩] ∧
      lowerCasePost.ServeHTTP miniRE MethodPost "/a".toList [] = .ok (.Match 7 []) ∧
      ((New 0 1 2 : Mux Nat).Handle sampleUpper "/a".toList 7 ["poſt".toList]).routes =
        [⟨MethodPost, Split "/a".toList '/', false, 7⟩] :=
  ⟨(Handle_appends (New 0 1 2) "/a".toList 7 ["post".toList]).1,
    (Handle_appends (New 0 1 2) "/a".toList 7 ["post".toList]).2.2.2.2.2.2.2.2 miniRE
      "/a".toList [] [] (fun q hq => (by cases hq)) (by decide),
    (Handle_appends (New 0 1 2) "/a".toList 7 ["poſt".toList]).1⟩

end Contracts


/-! ## The loop of `route.match`, side by side -/

section Lockstep

variable (E : Regexp)

theorem matchLoop_eq_lockstep (segs : List Str) : ∀ (front rem : List Str) (ctx : Ctx),
    matchLoop E (front ++ rem) segs front.length ctx = matchLockstep E segs rem ctx := by
  induction segs with
  | nil => intro front rem ctx; simp [matchLoop, matchLockstep]
  | cons rs segs ih =>
    intro front rem ctx
    cases rem with
    | nil =>
      have hguard : (front.length : Int) > ((front ++ []).length : Int) - 1 := by
        simp
      rw [matchLoop, matchLockstep]
      simp only [hguard, if_true]
    | cons u us =>
      have hrange := guard_in_range (front ++ u :: us) front.length (by simp)
      have hi := getElem?_front front u us
      have hstep : ∀ ctx', matchLoop E (front ++ u :: us) segs (front.length + 1) ctx' =
          matchLockstep E segs us ctx' := by
        intro ctx'
        have := ih (front ++ [u]) us ctx'
        simpa using this
      rw [matchLoop, matchLockstep]
      simp only [hrange, if_false, hi, hstep, MustCompile, rxText]
      by_cases hd : rs = "...".toList
      · simp only [hd, if_true]
      · simp only [hd, if_false]
        by_cases hp : HasPrefix rs ":".toList = true
        · simp only [hp, if_true]
          by_cases hpipe : Index rs '|' = -1
          · simp only [hpipe, if_true]
          · simp only [hpipe, if_false]
            by_cases hc : E.compiles (List.drop (Index rs '|' + 1).toNat rs) = true
            · simp only [hc, if_true]
            · simp only [hc, Bool.false_eq_true, if_false]
        · simp only [hp, Bool.false_eq_true, if_false]
          by_cases hu : u = rs
          · simp [hu]
          · simp [hu]

theorem match_eq_lockstep {H : Type} (r : route H) (ctx : Ctx) (url : List Str) :
    r.match E ctx url =
      if r.wildcard = true ∨ url.length = r.segments.length then
        matchLockstep E r.segments url ctx
      else .ok (ctx, false) := by
  have h := matchLoop_eq_lockstep E r.segments [] url ctx
  simp only [List.nil_append, List.length_nil] at h
  by_cases hc : r.wildcard = true ∨ url.length = r.segments.length
  · rw [match_eq_matchLoop E r ctx url hc, h, if_pos hc]
  · rw [if_neg hc]
    have hw : r.wildcard = false := by
      cases hw : r.wildcard with
      | false => rfl
      | true => exact absurd (.inl hw) hc
    have hl : ¬ url.length = r.segments.length := fun e => hc (.inr e)
    simp [route.match, hw, hl]

theorem named_ne_wildcard (rs : Str) (h : HasPrefix rs ":".toList = true) :
    rs ≠ "...".toList := by
  intro e
  rw [e] at h
  revert h
  decide

theorem lockstep_step (rs u : Str) (segs us : List Str) (ctx : Ctx)
    (hne : rs ≠ "...".toList) (hpass : segPasses E rs u = true) :
    matchLockstep E (rs :: segs) (u :: us) ctx =
      matchLockstep E segs us
        (if HasPrefix rs ":".toList then WithValue ctx (keyOf rs) u else ctx) := by
  rw [matchLockstep]
  simp only [hne, if_false]
  by_cases hp : HasPrefix rs ":".toList = true
  · simp only [hp, if_true]
    by_cases hpipe : Index rs '|' = -1
    · simp only [hpipe, if_true, keyOf]
    · simp only [segPasses, hp, if_true, hpipe, if_false, Bool.and_eq_true] at hpass
      simp only [hpipe, if_false, rxText, hpass.1, hpass.2, if_true, keyOf]
  · simp only [segPasses, hp, Bool.false_eq_true, if_false, decide_eq_true_eq] at hpass
    simp only [hp, Bool.false_eq_true, if_false, hpass, if_true]

theorem lockstep_panic_of (pre us : List Str)
    (h : List.Forall₂ (fun rs u => rs ≠ "...".toList ∧ segPasses E rs u = true) pre us)
    (seg u : Str) (post rest : List Str)
    (hcon : constrained seg = true) (hbad : E.compiles (rxText seg) = false) :
    ∀ ctx, matchLockstep E (pre ++ seg :: post) (us ++ u :: rest) ctx =
      .panic (.regexpCompile (rxText seg)) := by
  induction h with
  | nil =>
    intro ctx
    simp only [constrained, Bool.and_eq_true, decide_eq_true_eq] at hcon
    rw [List.nil_append, List.nil_append, matchLockstep]
    simp only [named_ne_wildcard seg hcon.1, if_false, hcon.1, if_true, hcon.2, hbad,
      Bool.false_eq_true]
  | @cons rs u' pre us hhead _ ih =>
    intro ctx
    rw [List.cons_append, List.cons_append, lockstep_step E rs u' _ _ ctx hhead.1 hhead.2]
    exact ih _

theorem lockstep_panic_iff (segs : List Str) : ∀ (rem : List Str) (ctx : Ctx) (p : Panic),
    matchLockstep E segs rem ctx = .panic p ↔
      ∃ pre seg post us u rest, segs = pre ++ seg :: post ∧ rem = us ++ u :: rest ∧
        List.Forall₂ (fun rs u => rs ≠ "...".toList ∧ segPasses E rs u = true) pre us ∧
        constrained seg = true ∧ E.compiles (rxText seg) = false ∧
        p = .regexpCompile (rxText seg) := by
  intro rem ctx p
  constructor
  · induction segs generalizing rem ctx with
    | nil => intro h; simp [matchLockstep] at h
    | cons rs segs ih =>
      intro h
      cases rem with
      | nil => simp [matchLockstep] at h
      | cons u us =>
        have hrec : ∀ ctx', rs ≠ "...".toList → segPasses E rs u = true →
            matchLockstep E segs us ctx' = .panic p →
            ∃ pre seg post us' u' rest, rs :: segs = pre ++ seg :: post ∧
              u :: us = us' ++ u' :: rest ∧
              List.Forall₂ (fun rs u => rs ≠ "...".toList ∧ segPasses E rs u = true) pre us' ∧
              constrained seg = true ∧ E.compiles (rxText seg) = false ∧
              p = .regexpCompile (rxText seg) := by
          intro ctx' hne hpass h'
          obtain ⟨pre, seg, post, us', u', rest, h1, h2, h3, h4, h5, h6⟩ := ih us ctx' h'
          exact ⟨rs :: pre, seg, post, u :: us', u', rest, by rw [h1]; rfl, by rw [h2]; rfl,
            .cons ⟨hne, hpass⟩ h3, h4, h5, h6⟩
        rw [matchLockstep] at h
        by_cases hd : rs = "...".toList
        · simp only [hd, if_true] at h
          cases h
        · simp only [hd, if_false] at h
          by_cases hp : HasPrefix rs ":".toList = true
          · simp only [hp, if_true] at h
            by_cases hpipe : Index rs '|' = -1
            · simp only [hpipe, if_true] at h
              exact hrec _ hd (by simp only [segPasses, hp, if_true, hpipe]) h
            · simp only [hpipe, if_false] at h
              by_cases hc : E.compiles (rxText rs) = true
              · simp only [hc, if_true] at h
                by_cases hms : MatchString E (rxText rs) u = true
                · simp only [hms, if_true] at h
                  refine hrec _ hd ?_ h
                  simp only [segPasses, hp, if_true, hpipe, if_false, Bool.and_eq_true]
                  exact ⟨hc, hms⟩
                · simp only [hms, Bool.false_eq_true, if_false] at h
                  cases h
              · simp only [hc, Bool.false_eq_true, if_false, Result.panic.injEq] at h
                simp only [Bool.not_eq_true] at hc
                refine ⟨[], rs, segs, [], u, us, rfl, rfl, .nil, ?_, hc, h.symm⟩
                simp only [constrained, hp, Bool.true_and, decide_eq_true_eq]
                exact hpipe
          · simp only [hp, Bool.false_eq_true, if_false] at h
            by_cases hu : u = rs
            · simp only [hu, if_true] at h
              refine hrec _ hd ?_ h
              simp only [segPasses, hp, Bool.false_eq_true, if_false, decide_eq_true_eq]
              exact hu
            · simp only [hu, if_false] at h
              cases h
  · rintro ⟨pre, seg, post, us, u, rest, rfl, rfl, h3, h4, h5, rfl⟩
    exact lockstep_panic_of E pre us h3 seg u post rest h4 h5 ctx

theorem lockstep_bindings (segs : List Str) : ∀ (rem : List Str) (ctx c : Ctx),
    matchLockstep E segs rem ctx = .ok (c, true) → c = bindings segs rem ++ ctx := by
  induction segs with
  | nil =>
    intro rem ctx c h
    simp only [matchLockstep, Result.ok.injEq, Prod.mk.injEq, and_true] at h
    simp [bindings, h]
  | cons rs segs ih =>
    intro rem ctx c h
    cases rem with
    | nil => simp [matchLockstep] at h
    | cons u us =>
      rw [matchLockstep] at h
      rw [bindings]
      by_cases hd : rs = "...".toList
      · simp only [hd, if_true, Result.ok.injEq, Prod.mk.injEq, and_true] at h
        simp [hd, h]
      · simp only [hd, if_false] at h ⊢
        by_cases hp : HasPrefix rs ":".toList = true
        · simp only [hp, if_true] at h ⊢
          by_cases hpipe : Index rs '|' = -1
          · simp only [hpipe, if_true] at h
            rw [ih us _ c h]
            simp [WithValue, keyOf, hpipe]
          · simp only [hpipe, if_false] at h
            by_cases hc : E.compiles (rxText rs) = true
            · simp only [hc, if_true] at h
              by_cases hms : MatchString E (rxText rs) u = true
              · simp only [hms, if_true] at h
                rw [ih us _ c h]
                simp [WithValue, keyOf, hpipe]
              · simp only [hms, Bool.false_eq_true, if_false, Result.ok.injEq, Prod.mk.injEq,
                  and_false] at h
            · simp only [hc, Bool.false_eq_true, if_false] at h
              cases h
        · simp only [hp, Bool.false_eq_true, if_false] at h ⊢
          by_cases hu : u = rs
          · simp only [hu, if_true] at h
            exact ih us _ c h
          · simp only [hu, if_false, Result.ok.injEq, Prod.mk.injEq] at h
            exact absurd h.2 (by decide)

theorem match_wellFormed {H : Type} (r : route H) (ctx : Ctx) (url : List Str)
    (hwf : wellFormed E r.segments) : ∃ c b, r.match E ctx url = .ok (c, b) := by
  cases hm : r.match E ctx url with
  | ok res => exact ⟨res.1, res.2, rfl⟩
  | panic p =>
    rw [match_eq_lockstep] at hm
    split at hm
    · obtain ⟨pre, seg, post, _, _, _, h1, _, _, h4, h5, _⟩ :=
        (lockstep_panic_iff E r.segments url ctx p).1 hm
      have := hwf seg (by rw [h1]; simp) h4
      rw [h5] at this
      cases this
    · cases hm

theorem serveLoop_wellFormed {H : Type} (m : Mux H) (method : Str) (ctx : Ctx)
    (url : List Str) (routes : List (route H)) : ∀ allowed : List Str,
    (∀ q ∈ routes, wellFormed E q.segments) →
    ∃ o, serveLoop E m method ctx url routes allowed = .ok o := by
  induction routes with
  | nil => intro allowed _; exact ⟨_, rfl⟩
  | cons q routes ih =>
    intro allowed hwf
    have hrest : ∀ q' ∈ routes, wellFormed E q'.segments := fun q' h => hwf q' (by simp [h])
    obtain ⟨c, b, hq⟩ := match_wellFormed E q ctx url (hwf q (by simp))
    rw [serveLoop, hq]
    cases b with
    | false => simpa using ih allowed hrest
    | true =>
      by_cases hm : method = q.method
      · exact ⟨.Match q.handler c, by simp [hm]⟩
      · simp only [if_true, hm, if_false]
        split
        · exact ih _ hrest
        · exact ih _ hrest

end Lockstep

/-! ## Panics, the pattern invariant, HEAD, and the request context (C17 to C20) -/

section Robust

variable {H : Type} {U : Char → Char} (E : Regexp)

/-- C17: `route.match` panics exactly when the length check passes and the loop reaches
a constrained named segment whose text does not compile: the path has a segment at its
index, and every earlier pattern segment is no `...` and is satisfied by the path
segment at its index.  The panic is then the one of `regexp.MustCompile`; a path
segment is never indexed out of range, whatever the lengths and the wildcard flag.  So
when all constraints of a route are well-formed `route.match` returns, and when this is
so for every route of the table `ServeHTTP` returns an outcome. -/
theorem match_panics_iff (r : route H) (ctx : Ctx) (url : List Str) (p : Panic) :
    (r.match E ctx url = .panic p ↔
      (r.wildcard = true ∨ url.length = r.segments.length) ∧
      ∃ pre seg post us u rest, r.segments = pre ++ seg :: post ∧ url = us ++ u :: rest ∧
        List.Forall₂ (fun rs u => rs ≠ "...".toList ∧ segPasses E rs u = true) pre us ∧
        constrained seg = true ∧ E.compiles (rxText seg) = false ∧
        p = .regexpCompile (rxText seg)) ∧
    r.match E ctx url ≠ .panic .indexOutOfRange ∧
    (wellFormed E r.segments → ∃ c b, r.match E ctx url = .ok (c, b)) ∧
    ∀ (m : Mux H) (method path : Str), (∀ q ∈ m.routes, wellFormed E q.segments) →
      ∃ o, m.ServeHTTP E method path ctx = .ok o := by
  have hiff : ∀ p', r.match E ctx url = .panic p' ↔
      (r.wildcard = true ∨ url.length = r.segments.length) ∧
      ∃ pre seg post us u rest, r.segments = pre ++ seg :: post ∧ url = us ++ u :: rest ∧
        List.Forall₂ (fun rs u => rs ≠ "...".toList ∧ segPasses E rs u = true) pre us ∧
        constrained seg = true ∧ E.compiles (rxText seg) = false ∧
        p' = .regexpCompile (rxText seg) := by
    intro p'
    rw [match_eq_lockstep]
    by_cases hc : r.wildcard = true ∨ url.length = r.segments.length
    · rw [if_pos hc, lockstep_panic_iff]
      exact ⟨fun h => ⟨hc, h⟩, fun h => h.2⟩
    · rw [if_neg hc]
      exact ⟨fun h => (by cases h), fun h => absurd h.1 hc⟩
  refine ⟨hiff p, ?_, match_wellFormed E r ctx url, ?_⟩
  · intro h
    obtain ⟨_, _, _, _, _, _, _, _, _, _, _, _, h6⟩ := (hiff _).1 h
    cases h6
  · intro m method path hwf
    exact serveLoop_wellFormed E m method ctx (Split path '/') m.routes [] hwf

/-- Matching `/users/42` against `/users/:id|(` reaches the constraint `(`, which does
not compile, and panics. -/
theorem match_panics_iff_witness :
    (⟨MethodGet, Split "/users/:id|(".toList '/', false, 7⟩ : route Nat).match miniRE []
      (Split "/users/42".toList '/') = .panic (.regexpCompile "(".toList) :=
  (match_panics_iff miniRE ⟨MethodGet, Split "/users/:id|(".toList '/', false, 7⟩ []
    (Split "/users/42".toList '/') (.regexpCompile "(".toList)).1.2
    ⟨.inr (by decide), ["".toList, "users".toList], ":id|(".toList, [],
      ["".toList, "users".toList], "42".toList, [], by decide, by decide,
      .cons ⟨by decide, by decide⟩ (.cons ⟨by decide, by decide⟩ .nil),
      by decide, by decide, by decide⟩

theorem Join_append_singleton (pre : List Str) (x sep : Str) (h : pre ≠ []) :
    Join (pre ++ [x]) sep = Join pre sep ++ sep ++ x := by
  induction pre with
  | nil => exact absurd rfl h
  | cons a pre ih =>
    cases pre with
    | nil => simp [Join]
    | cons b rest =>
      have := ih (by simp)
      simp only [List.cons_append] at this ⊢
      rw [Join, this, Join]
      simp [List.append_assoc]

theorem HasSuffix_wildcard_iff (pattern : Str) :
    HasSuffix pattern "/...".toList = true ↔
      ∃ pre, pre ≠ [] ∧ Split pattern '/' = pre ++ ["...".toList] := by
  constructor
  · intro h
    rw [HasSuffix, List.isSuffixOf_iff_suffix] at h
    obtain ⟨p, rfl⟩ := h
    exact ⟨Split p '/', Split_ne_nil p '/', Split_wildcard p⟩
  · rintro ⟨pre, hpre, hs⟩
    have hj := Join_Split pattern '/'
    rw [hs, Join_append_singleton pre _ _ hpre] at hj
    rw [HasSuffix, List.isSuffixOf_iff_suffix]
    refine ⟨Join pre ['/'], ?_⟩
    rw [← hj]
    simp [List.append_assoc]

/-- C18, refuted as stated: `Handle` stores the pattern `/.../a` with the marker in the
middle and the wildcard flag off, and `/.../...` with the marker twice; `route.match`
returns true at the marker of `/.../a` for the path `/x/y`, and the request is
dispatched. -/
theorem pattern_invariant_counterexample :
    dotsInside.routes =
        [⟨MethodGet, ["".toList, "...".toList, "a".toList], false, 7⟩,
          ⟨MethodHead, ["".toList, "...".toList, "a".toList], false, 7⟩] ∧
      Split "/.../...".toList '/' = ["".toList, "...".toList, "...".toList] ∧
      (⟨MethodGet, ["".toList, "...".toList, "a".toList], false, 7⟩ : route Nat).match miniRE []
        (Split "/x/y".toList '/') = .ok ([], true) ∧
      "y".toList ≠ "a".toList ∧
      dotsInside.ServeHTTP miniRE MethodGet "/x/y".toList [] = .ok (.Match 7 []) := by
  decide

/-- C18, amended: a route stored by `Handle` holds the segments of the pattern as they
are, and its wildcard flag is set exactly when they are at least two and the last one
is `...`.  Nothing checks the pattern.  When the marker occurs in the pattern only as
the last of at least two segments, a stored route with the flag off has no marker among
its segments, so only then is a match at the marker confined to routes with the flag
set. -/
theorem wildcard_flag_iff (m : Mux H) (pattern : Str) (handler : H) (methods : List Str) :
    (∀ r ∈ (m.Handle U pattern handler methods).routes, r ∈ m.routes ∨
      (r.segments = Split pattern '/' ∧
        (r.wildcard = true ↔ ∃ pre, pre ≠ [] ∧ r.segments = pre ++ ["...".toList]))) ∧
    ((∀ pre post, Split pattern '/' = pre ++ "...".toList :: post → pre ≠ [] ∧ post = []) →
      ∀ r ∈ (m.Handle U pattern handler methods).routes, r ∈ m.routes ∨
        (r.wildcard = false → "...".toList ∉ r.segments)) := by
  have hnew : ∀ r ∈ (m.Handle U pattern handler methods).routes, r ∈ m.routes ∨
      (r.segments = Split pattern '/' ∧ r.wildcard = HasSuffix pattern "/...".toList) := by
    intro r hr
    rw [Handle_eq] at hr
    rcases List.mem_append.1 hr with hr | hr
    · exact .inl hr
    · obtain ⟨x, _, rfl⟩ := List.mem_map.1 hr
      exact .inr ⟨rfl, rfl⟩
  constructor
  · intro r hr
    rcases hnew r hr with h | ⟨h1, h2⟩
    · exact .inl h
    · exact .inr ⟨h1, by rw [h2, h1]; exact HasSuffix_wildcard_iff pattern⟩
  · intro hinv r hr
    rcases hnew r hr with h | ⟨h1, h2⟩
    · exact .inl h
    · right
      intro hw hmem
      rw [h1] at hmem
      obtain ⟨pre, post, hsplit⟩ := List.append_of_mem hmem
      obtain ⟨hpre, hpost⟩ := hinv pre post hsplit
      have : HasSuffix pattern "/...".toList = true :=
        (HasSuffix_wildcard_iff pattern).2 ⟨pre, hpre, by rw [hsplit, hpost]⟩
      rw [h2, this] at hw
      cases hw

/-- For `/static/...` the marker is the last of three segments: the stored routes have
the flag set. -/
theorem wildcard_flag_iff_witness :
    ∀ r ∈ staticFiles.routes, r ∈ (New 0 1 2 : Mux Nat).routes ∨
      (r.wildcard = false → "...".toList ∉ r.segments) :=
  (wildcard_flag_iff (New 0 1 2) "/static/...".toList 7 [MethodGet]).2 (by
    intro pre post h
    have h' : ["".toList, "static".toList, "...".toList] = pre ++ "...".toList :: post := h
    match pre, post, h' with
    | [_, _], [], _ => exact ⟨by simp, rfl⟩
    | [], _, h' => simp at h'
    | [_], _, h' => simp at h'
    | [_, _], _ :: _, h' => simp at h'
    | _ :: _ :: _ :: _, _, h' => simp at h')

theorem normalizedMethods_mem (methods : List Str) (hget : contains methods MethodGet = true) :
    MethodGet ∈ normalizedMethods methods ∧ MethodHead ∈ normalizedMethods methods := by
  have hg : MethodGet ∈ methods := (contains_iff _ _).1 hget
  have hne : methods ≠ [] := List.ne_nil_of_mem hg
  cases hh : contains methods MethodHead with
  | true =>
    have hlen : ¬ methods.length = 0 := fun e => hne (List.length_eq_zero.1 e)
    simp only [normalizedMethods, hget, hh, Bool.not_true, Bool.and_false, Bool.false_eq_true,
      if_false, hlen]
    exact ⟨hg, (contains_iff _ _).1 hh⟩
  | false =>
    rw [normalizedMethods_get methods hget hh]
    exact ⟨by simp [hg], by simp⟩

theorem run_append (m : Mux H) (a b : List (Op H)) : m.run U (a ++ b) = (m.run U a).run U b := by
  simp [Mux.run, List.foldl_append]

theorem run_routes_mono (m : Mux H) (ops : List (Op H)) (r : route H) (h : r ∈ m.routes) :
    r ∈ (m.run U ops).routes := by
  rw [(run_fields ops m).1]
  exact List.mem_append_left _ h

/-- C19, refuted as stated: `Handle("/a", h, "get")` stores one route, with the method
`GET`, and no HEAD route; `HEAD /a` is answered with Method Not Allowed. -/
theorem GET_without_HEAD_counterexample :
    lowerCaseGet.routes = [⟨MethodGet, Split "/a".toList '/', false, 7⟩] ∧
      lowerCaseGet.ServeHTTP miniRE MethodHead "/a".toList [] =
        .ok (.MethodNotAllowed "GET, OPTIONS".toList 1 []) := by
  decide

/-- C19, amended: in every table reached by a sequence of `Use` and `Handle` calls,
each `Handle` call whose method list contains the string `GET` itself has left a GET
route and a HEAD route with the same pattern and the same handler, the base handler
wrapped with the middlewares of the moment of the call. -/
theorem GET_has_HEAD (m : Mux H) (before after : List (Op H)) (pattern : Str) (handler : H)
    (methods : List Str) (hget : contains methods MethodGet = true) :
    (⟨MethodGet, Split pattern '/', HasSuffix pattern "/...".toList,
        (m.run U before).wrap handler⟩ : route H) ∈
        (m.run U (before ++ Op.handle pattern handler methods :: after)).routes ∧
      (⟨MethodHead, Split pattern '/', HasSuffix pattern "/...".toList,
        (m.run U before).wrap handler⟩ : route H) ∈
        (m.run U (before ++ Op.handle pattern handler methods :: after)).routes := by
  have hrun : m.run U (before ++ Op.handle pattern handler methods :: after) =
      ((m.run U before).Handle U pattern handler methods).run U after := by
    rw [run_append]
    rfl
  obtain ⟨hg, hh⟩ := normalizedMethods_mem methods hget
  have hup1 : ToUpper U MethodGet = MethodGet := rfl
  have hup2 : ToUpper U MethodHead = MethodHead := rfl
  rw [hrun]
  constructor
  · apply run_routes_mono
    rw [Handle_eq]
    exact List.mem_append_right _ (List.mem_map.2 ⟨MethodGet, hg, by rw [hup1]⟩)
  · apply run_routes_mono
    rw [Handle_eq]
    exact List.mem_append_right _ (List.mem_map.2 ⟨MethodHead, hh, by rw [hup2]⟩)

/-- After `Handle("/a", 7, "GET")` and `Handle("/a", 8, "POST")` the table holds
`GET /a` and `HEAD /a` with handler 7. -/
theorem GET_has_HEAD_witness :
    (⟨MethodGet, Split "/a".toList '/', false, 7⟩ : route Nat) ∈ getThenPost.routes ∧
      (⟨MethodHead, Split "/a".toList '/', false, 7⟩ : route Nat) ∈ getThenPost.routes :=
  GET_has_HEAD (New 0 1 2) [] [.handle "/a".toList 8 [MethodPost]] "/a".toList 7 [MethodGet]
    (by decide)

/-- C20: the context handed to the handler of the dispatched route is the request's
context with, in front of it, the bindings of that route's named segments and nothing
else: each named segment (up to a `...`, where matching stops) binds the path segment at
its position.  It depends on the winning route and the request only, so nothing bound
while other routes were tried is in it.  The NotFound, MethodNotAllowed and Options
handlers get the request's context as it came. -/
theorem bindings_isolated (m : Mux H) (method path : Str) (ctx : Ctx) :
    (∀ h c, m.ServeHTTP E method path ctx = .ok (.Match h c) →
      ∃ r ∈ m.routes, r.method = method ∧ r.handler = h ∧
        r.match E ctx (Split path '/') = .ok (c, true) ∧
        c = bindings r.segments (Split path '/') ++ ctx) ∧
    (∀ h c, m.ServeHTTP E method path ctx = .ok (.NotFound h c) → c = ctx) ∧
    (∀ a h c, m.ServeHTTP E method path ctx = .ok (.MethodNotAllowed a h c) → c = ctx) ∧
    (∀ a h c, m.ServeHTTP E method path ctx = .ok (.Options a h c) → c = ctx) := by
  have key : ∀ o : Outcome H, m.ServeHTTP E method path ctx = .ok o →
      (∃ r ∈ m.routes, ∃ c, r.method = method ∧ o = .Match r.handler c ∧
        r.match E ctx (Split path '/') = .ok (c, true) ∧
        c = bindings r.segments (Split path '/') ++ ctx) ∨
      o = .NotFound (m.wrap m.NotFound) ctx ∨
      (∃ a, o = .MethodNotAllowed a (m.wrap m.MethodNotAllowed) ctx) ∨
      ∃ a, o = .Options a (m.wrap m.Options) ctx := by
    intro o hs
    rcases serveLoop_ok_cases E method ctx (Split path '/') m m.routes [] o hs with
      ⟨r, hr, c, hc, hm, rfl⟩ | ⟨_, rfl⟩
    · refine .inl ⟨r, hr, c, hm, rfl, hc, ?_⟩
      have hc' := hc
      rw [match_eq_lockstep] at hc'
      split at hc'
      · exact lockstep_bindings E _ _ _ _ hc'
      · simp at hc'
    · exact .inr (fallback_cases method ctx m _)
  refine ⟨?_, ?_, ?_, ?_⟩
  · intro h c hs
    rcases key _ hs with ⟨r, hr, c', hm, e, hc, hb⟩ | e | ⟨a, e⟩ | ⟨a, e⟩
    · simp only [Outcome.Match.injEq] at e
      obtain ⟨rfl, rfl⟩ := e
      exact ⟨r, hr, hm, rfl, hc, hb⟩
    · cases e
    · cases e
    · cases e
  · intro h c hs
    rcases key _ hs with ⟨r, hr, c', hm, e, hc, hb⟩ | e | ⟨a, e⟩ | ⟨a, e⟩
    · cases e
    · simp only [Outcome.NotFound.injEq] at e
      exact e.2
    · cases e
    · cases e
  · intro a h c hs
    rcases key _ hs with ⟨r, hr, c', hm, e, hc, hb⟩ | e | ⟨a', e⟩ | ⟨a', e⟩
    · cases e
    · cases e
    · simp only [Outcome.MethodNotAllowed.injEq] at e
      exact e.2.2
    · cases e
  · intro a h c hs
    rcases key _ hs with ⟨r, hr, c', hm, e, hc, hb⟩ | e | ⟨a', e⟩ | ⟨a', e⟩
    · cases e
    · cases e
    · cases e
    · simp only [Outcome.Options.injEq] at e
      exact e.2.2

/-- `GET /users/:id` is tried first for `POST /users/42` and matches the path; the
context handed to the handler of `POST /users/:name` holds the binding of `:name` in
front of the request's context, and none for `:id`. -/
theorem bindings_isolated_witness :
    ∃ r ∈ twoNames.routes, r.method = MethodPost ∧ r.handler = 8 ∧
      r.match miniRE [("k".toList, "v".toList)] (Split "/users/42".toList '/') =
        .ok ([(":name".toList, "42".toList), ("k".toList, "v".toList)], true) ∧
      [(":name".toList, "42".toList), ("k".toList, "v".toList)] =
        bindings r.segments (Split "/users/42".toList '/') ++ [("k".toList, "v".toList)] :=
  (bindings_isolated miniRE twoNames MethodPost "/users/42".toList
    [("k".toList, "v".toList)]).1 8
    [(":name".toList, "42".toList), ("k".toList, "v".toList)] (by decide)

end Robust

/-! ## The embedding on the examples of the specification -/

theorem eval_Split :
    Split "/users/42".toList '/' = ["".toList, "users".toList, "42".toList] ∧
      Split "".toList '/' = [[]] ∧
      Split "/a/".toList '/' = ["".toList, "a".toList, "".toList] := by
  decide

theorem eval_ToUpper :
    ToUpper sampleUpper "get".toList = "GET".toList ∧
      ToUpper sampleUpper "poſt".toList = "POST".toList ∧
      ToUpper sampleUpper "Trace-é".toList = "TRACE-É".toList := by
  decide

theorem eval_miniRE :
    MatchString miniRE "^[0-9]+$".toList "42".toList = true ∧
      MatchString miniRE "^[0-9]+$".toList "abc".toList = false ∧
      MatchString miniRE "^[0-9]+$".toList "a1".toList = false ∧
      MatchString miniRE "ab*c".toList "xxabbbcx".toList = true ∧
      miniRE.compiles "(".toList = false := by
  decide

theorem eval_usersById :
    usersById.ServeHTTP miniRE MethodGet "/users/abc".toList [] = .ok (.NotFound 0 []) ∧
      usersById.ServeHTTP miniRE MethodPost "/users/42".toList [] =
        .ok (.MethodNotAllowed "GET, HEAD, OPTIONS".toList 1 []) := by
  decide

end Flow
